import Mathlib

/-!
# AMD64 frame layer of the Tiger compiler (`amd64frame.c`)

A shallow embedding of `src/tiger-code/src/amd64frame.c`.

Conventions of the embedding.

* C `int` values (`i`, `offset`, `local_count`, `F_K`, `F_WORD_SIZE`) are
  mathematical integers (`Int`).  Signed overflow is undefined behaviour in C;
  the loop counter `i` never exceeds `F_K + 1 = 7`, formal offsets never exceed
  `64`, and `local_count` / local offsets stay inside the 32-bit range for the
  first `2^28 - 1` allocations on one frame (lemma `allocLocals_in_int_range`).
* `NULL`-terminated linked lists (`U_boolList`, `F_accessList`) are `List`s;
  `NULL` is `[]`.
* Heap objects that the C code mutates through a pointer (`F_frame`) are
  values that the embedded function returns updated.
* The process-wide temporary generator is an explicit counter that is passed
  in and returned.
* The `static` variables of the register catalog live in one record `World`
  (with the generator counter); an accessor takes the state and returns its
  value with the state after the call.
* C does not fix the order in which the arguments of one call are evaluated.
  Where two arguments both draw temporaries, the embedded function takes a flag
  `rtl` (`false`: left to right, `true`: right to left) and every result about
  it is proved for both values.
* `checked_malloc` returns a block with unspecified content; a constructor
  that does not assign every member takes that content as an argument.
-/

namespace Amd64Frame

/-! ## Collaborators declared in headers outside the translated file -/

/-- Modelled from the spec: `Temp_temp` (declared in `temp.h`, not part of the
translated file) is "an abstract, globally unique identifier for a value,
created by a monotonically increasing counter"; a temporary is identified with
the counter value it was created from. -/
abbrev Temp_temp := Nat

/-- Modelled from the spec: `Temp_label` (declared in `temp.h`) is a procedure
or string label; only equality of labels is observed here. -/
abbrev Temp_label := String

/-- Modelled from the spec: `Temp_newtemp` (defined in `temp.c`, not part of
the translated file) returns a fresh temporary from "a monotonically increasing
counter"; `temps` is the counter before the call, the second component the
counter after it. -/
def Temp_newtemp (temps : Nat) : Temp_temp × Nat := (temps, temps + 1)

/-- Modelled from the spec: the binary operators of the tree language
(`tree.h`); only `T_plus` is used by the translated file. -/
inductive T_binOp where
  | T_plus
  | T_minus
  | T_mul
  | T_div
  deriving DecidableEq, Repr

/-- Modelled from the spec: the expressions of the tree language (`tree.h`)
that the translated file builds: a memory dereference, a binary operation, a
direct reference to a temporary, an integer constant and a label. -/
inductive T_exp where
  | T_Binop (op : T_binOp) (left right : T_exp)
  | T_Mem (e : T_exp)
  | T_Temp (t : Temp_temp)
  | T_Const (c : Int)
  | T_Name (l : Temp_label)
  deriving DecidableEq, Repr

/-! ## Data model of `amd64frame.c` -/

/-- The tagged union `struct F_access_`: kind `inFrame` carries `u.offset`,
kind `inReg` carries `u.reg`.  The constructors are the C functions `InFrame`
and `InReg`, which allocate the struct and set the tag and the payload. -/
inductive F_access where
  | InFrame (offset : Int)
  | InReg (reg : Temp_temp)
  deriving DecidableEq, Repr

open F_access T_exp T_binOp

/-- The constant `const int F_WORD_SIZE = 8`. -/
def F_WORD_SIZE : Int := 8

/-- The constant `static const int F_K = 6`: number of parameters kept in
registers. -/
def F_K : Int := 6

/-- The list type `F_accessList`; `F_AccessList head tail` is `head :: tail`. -/
abbrev F_accessList := List F_access

/-- The list type `U_boolList` of escape flags. -/
abbrev U_boolList := List Bool

/-- The record `struct F_frame_`. -/
structure F_frame where
  name : Temp_label
  formals : F_accessList
  local_count : Int
  deriving DecidableEq, Repr

/-! ## Operations -/

/-- The `for` loop of `makeFormalAccessList`.  Loop state: the rest `fmls` of
the flag list, the counter `i`, the list built so far (`headList`, to whose
end `tailList` points) and the temporary counter.  Each iteration appends one
access at the tail; `i++` sits in the register branch only. -/
def makeFormalAccessList_loop :
    U_boolList → Int → F_accessList → Nat → F_accessList × Nat
  | [], _, headList, temps => (headList, temps)
  | head :: tail, i, headList, temps =>
    if i ≤ F_K ∧ head = false then
      makeFormalAccessList_loop tail (i + 1)
        (headList ++ [InReg (Temp_newtemp temps).1]) (Temp_newtemp temps).2
    else
      makeFormalAccessList_loop tail i
        (headList ++ [InFrame ((1 + i) * F_WORD_SIZE)]) temps

/-- The function `makeFormalAccessList(f, formals)`: `headList = NULL`,
`i = 1`, then the loop.  The frame argument `f` is not read by the C body and
is left out. -/
def makeFormalAccessList (formals : U_boolList) (temps : Nat) : F_accessList × Nat :=
  makeFormalAccessList_loop formals 1 [] temps

/-- The function `F_newFrame(name, formals)`; returns the frame and the
temporary counter after the call. -/
def F_newFrame (name : Temp_label) (formals : U_boolList) (temps : Nat) : F_frame × Nat :=
  ({ name := name
     formals := (makeFormalAccessList formals temps).1
     local_count := 0 },
   (makeFormalAccessList formals temps).2)

/-- The accessor `F_name`. -/
def F_name (f : F_frame) : Temp_label := f.name

/-- The accessor `F_formals`. -/
def F_formals (f : F_frame) : F_accessList := f.formals

/-- The function `F_allocLocal(f, escape)`: `f->local_count++` runs first and
unconditionally; then an escaping local gets
`InFrame(F_WORD_SIZE * (- f->local_count))`, any other `InReg(Temp_newtemp())`.
Returns the access, the updated frame and the temporary counter. -/
def F_allocLocal (f : F_frame) (escape : Bool) (temps : Nat) : F_access × F_frame × Nat :=
  let f1 : F_frame := { f with local_count := f.local_count + 1 }
  if escape then (InFrame (F_WORD_SIZE * (- f1.local_count)), f1, temps)
  else (InReg (Temp_newtemp temps).1, f1, (Temp_newtemp temps).2)

/-- The function `F_Exp(access, framePtr)`. -/
def F_Exp (access : F_access) (framePtr : T_exp) : T_exp :=
  match access with
  | InFrame offset => T_Mem (T_Binop T_plus framePtr (T_Const offset))
  | InReg reg => T_Temp reg

/-! ## Harness: sequences of calls and observations on access lists -/

/-- A caller that performs `F_allocLocal(f, e)` for each flag `e` of `escapes`
in turn on the same frame; returns the accesses in call order, the frame and
the temporary counter after the last call. -/
def allocLocals : F_frame → List Bool → Nat → List F_access × F_frame × Nat
  | f, [], temps => ([], f, temps)
  | f, e :: es, temps =>
    let r := F_allocLocal f e temps
    let rest := allocLocals r.2.1 es r.2.2
    (r.1 :: rest.1, rest.2.1, rest.2.2)

/-- True on register-resident accesses. -/
def isInReg : F_access → Bool
  | InReg _ => true
  | InFrame _ => false

/-- True on frame-resident accesses. -/
def isInFrame : F_access → Bool
  | InFrame _ => true
  | InReg _ => false

/-- The offsets of the frame-resident entries of an access list, in order. -/
def frameOffsets : List F_access → List Int
  | [] => []
  | InFrame o :: l => o :: frameOffsets l
  | InReg _ :: l => frameOffsets l

/-- The temporaries of the register-resident entries of an access list, in
order. -/
def regTemps : List F_access → List Temp_temp
  | [] => []
  | InFrame _ :: l => regTemps l
  | InReg t :: l => t :: regTemps l

/-- The formal-access list written the way the loop computes it, by recursion
on the flag list (no accumulator); proved equal to the loop below. -/
def formalsFrom : U_boolList → Int → Nat → F_accessList × Nat
  | [], _, temps => ([], temps)
  | head :: tail, i, temps =>
    if i ≤ F_K ∧ head = false then
      (InReg temps :: (formalsFrom tail (i + 1) (temps + 1)).1,
        (formalsFrom tail (i + 1) (temps + 1)).2)
    else
      (InFrame ((1 + i) * F_WORD_SIZE) :: (formalsFrom tail i temps).1,
        (formalsFrom tail i temps).2)

/-! ## Register catalog: process-wide state -/

/-- The list type `Temp_tempList` (`temp.h`); `Temp_TempList h t`, abbreviated
`TL h t` in the translated file, is `h :: t`, and `NULL` is `[]`. -/
abbrev Temp_tempList := List Temp_temp

/-- Modelled from the spec: `Temp_map` (`temp.h`, `temp.c`) is the table behind
"`nameOf(temporary) -> optional name`"; a list of bindings, newest first. -/
abbrev Temp_map := List (Temp_temp × String)

/-- Modelled from the spec: `Temp_name()` (`temp.c`) hands out the name table
that `F_add_to_map` writes to; a temporary that has not been entered is
"unbound", so the table starts without bindings. -/
def Temp_name : Temp_map := []

/-- Modelled from the spec: `Temp_enter(m, t, s)` (`temp.c`) adds the "name
binding" of `t` to `s`. -/
def Temp_enter (m : Temp_map) (t : Temp_temp) (s : String) : Temp_map := (t, s) :: m

/-- Modelled from the spec: `Temp_look(m, t)` (`temp.c`) is
"`nameOf(temporary) -> optional name`": the newest binding of `t`, if any. -/
def Temp_look : Temp_map → Temp_temp → Option String
  | [], _ => none
  | (t1, s) :: m, t => if t1 = t then some s else Temp_look m t

/-- Modelled from the spec: `Temp_TempList_join(a, b)` (`temp.c`) builds
"`allRegisters()`: union of `callerSaved()` and `calleeSaved()` — consumers
needing a true set must deduplicate", that is, the concatenation. -/
def Temp_TempList_join (a b : Temp_tempList) : Temp_tempList := a ++ b

/-- The file-scope and function-scope `static` variables of `amd64frame.c`,
together with the counter of the temporary generator.  A `static` pointer to a
temporary is `none` while `NULL`; a `static` list is `[]` while `NULL`. -/
structure World where
  temps : Nat
  F_tempMap : Option Temp_map
  fp : Option Temp_temp
  sp : Option Temp_temp
  rv : Option Temp_temp
  spregs : Temp_tempList
  rarg : Temp_tempList
  callee_saves : Temp_tempList
  caller_saves : Temp_tempList
  deriving DecidableEq, Repr

/-- The state at process start: every `static` is `NULL`; `temps0` is the first
value of the temporary generator. -/
def initWorld (temps0 : Nat) : World :=
  { temps := temps0, F_tempMap := none, fp := none, sp := none, rv := none,
    spregs := [], rarg := [], callee_saves := [], caller_saves := [] }

/-- A call of `Temp_newtemp()` on the process-wide counter. -/
def newtemp (w : World) : Temp_temp × World :=
  ((Temp_newtemp w.temps).1, { w with temps := (Temp_newtemp w.temps).2 })

/-- The function `F_add_to_map(str, temp)`: `F_tempMap` is set to
`Temp_name()` while it is `NULL`, then the binding is entered. -/
def F_add_to_map (str : String) (temp : Temp_temp) (w : World) : World :=
  match w.F_tempMap with
  | none => { w with F_tempMap := some (Temp_enter Temp_name temp str) }
  | some m => { w with F_tempMap := some (Temp_enter m temp str) }

/-- The function `F_FP()`. -/
def F_FP (w : World) : Temp_temp × World :=
  match w.fp with
  | none =>
    let t := newtemp w
    (t.1, F_add_to_map "rbp" t.1 { t.2 with fp := some t.1 })
  | some t => (t, w)

/-- The function `F_SP()`. -/
def F_SP (w : World) : Temp_temp × World :=
  match w.sp with
  | none =>
    let t := newtemp w
    (t.1, F_add_to_map "rsp" t.1 { t.2 with sp := some t.1 })
  | some t => (t, w)

/-- The function `F_RV()`. -/
def F_RV (w : World) : Temp_temp × World :=
  match w.rv with
  | none =>
    let t := newtemp w
    (t.1, F_add_to_map "rax" t.1 { t.2 with rv := some t.1 })
  | some t => (t, w)

/-- The function `F_make_arg_regs()`: six temporaries are drawn in declaration
order, then bound to their names, then listed. -/
def F_make_arg_regs (w : World) : Temp_tempList × World :=
  let rdi := newtemp w
  let rsi := newtemp rdi.2
  let rdx := newtemp rsi.2
  let rcx := newtemp rdx.2
  let r8 := newtemp rcx.2
  let r9 := newtemp r8.2
  let w1 := F_add_to_map "rdi" rdi.1 r9.2
  let w2 := F_add_to_map "rsi" rsi.1 w1
  let w3 := F_add_to_map "rdx" rdx.1 w2
  let w4 := F_add_to_map "rcx" rcx.1 w3
  let w5 := F_add_to_map "r8" r8.1 w4
  let w6 := F_add_to_map "r9" r9.1 w5
  ([rdi.1, rsi.1, rdx.1, rcx.1, r8.1, r9.1], w6)

/-- The function `F_make_calle_saves()`.  C leaves the order in which the
arguments `F_SP()` and `TL(F_FP(), ...)` of the outer `TL` are evaluated to
the compiler: `rtl = false` evaluates arguments left to right, `rtl = true`
right to left. -/
def F_make_calle_saves (rtl : Bool) (w : World) : Temp_tempList × World :=
  let rbx := newtemp w
  let r12 := newtemp rbx.2
  let r13 := newtemp r12.2
  let r14 := newtemp r13.2
  let r15 := newtemp r14.2
  let w1 := F_add_to_map "rbx" rbx.1 r15.2
  let w2 := F_add_to_map "r12" r12.1 w1
  let w3 := F_add_to_map "r13" r13.1 w2
  let w4 := F_add_to_map "r14" r14.1 w3
  let w5 := F_add_to_map "r15" r15.1 w4
  if rtl then
    let f := F_FP w5
    let s := F_SP f.2
    ([s.1, f.1, rbx.1, r12.1, r13.1, r14.1, r15.1], s.2)
  else
    let s := F_SP w5
    let f := F_FP s.2
    ([s.1, f.1, rbx.1, r12.1, r13.1, r14.1, r15.1], f.2)

/-- The function `F_make_caller_saves()`: the argument-register part of the
list comes from a call of `F_make_arg_regs()`, not of `F_arg_registers()`.
The flag `rtl` is the argument evaluation order, as in
`F_make_calle_saves`. -/
def F_make_caller_saves (rtl : Bool) (w : World) : Temp_tempList × World :=
  let r10 := newtemp w
  let r11 := newtemp r10.2
  let w1 := F_add_to_map "r10" r10.1 r11.2
  let w2 := F_add_to_map "r11" r11.1 w1
  if rtl then
    let a := F_make_arg_regs w2
    let r := F_RV a.2
    (r.1 :: r10.1 :: r11.1 :: a.1, r.2)
  else
    let r := F_RV w2
    let a := F_make_arg_regs r.2
    (r.1 :: r10.1 :: r11.1 :: a.1, a.2)

/-- The function `F_special_registers()`, with its function-scope `static`
list `spregs`. -/
def F_special_registers (rtl : Bool) (w : World) : Temp_tempList × World :=
  if w.spregs = [] then
    if rtl then
      let r := F_RV w
      let f := F_FP r.2
      let s := F_SP f.2
      ([s.1, f.1, r.1], { s.2 with spregs := [s.1, f.1, r.1] })
    else
      let s := F_SP w
      let f := F_FP s.2
      let r := F_RV f.2
      ([s.1, f.1, r.1], { r.2 with spregs := [s.1, f.1, r.1] })
  else (w.spregs, w)

/-- The function `F_arg_registers()`, with its `static` list `rarg`. -/
def F_arg_registers (w : World) : Temp_tempList × World :=
  if w.rarg = [] then
    let a := F_make_arg_regs w
    (a.1, { a.2 with rarg := a.1 })
  else (w.rarg, w)

/-- The function `F_callee_saves()`, with its `static` list `callee_saves`. -/
def F_callee_saves (rtl : Bool) (w : World) : Temp_tempList × World :=
  if w.callee_saves = [] then
    let a := F_make_calle_saves rtl w
    (a.1, { a.2 with callee_saves := a.1 })
  else (w.callee_saves, w)

/-- The function `F_caller_saves()`, with its `static` list `caller_saves`. -/
def F_caller_saves (rtl : Bool) (w : World) : Temp_tempList × World :=
  if w.caller_saves = [] then
    let a := F_make_caller_saves rtl w
    (a.1, { a.2 with caller_saves := a.1 })
  else (w.caller_saves, w)

/-- The function `F_registers()`. -/
def F_registers (rtl : Bool) (w : World) : Temp_tempList × World :=
  if rtl then
    let b := F_callee_saves rtl w
    let a := F_caller_saves rtl b.2
    (Temp_TempList_join a.1 b.1, a.2)
  else
    let a := F_caller_saves rtl w
    let b := F_callee_saves rtl a.2
    (Temp_TempList_join a.1 b.1, b.2)

/-- The name table as `Temp_look` reads it: no binding while `F_tempMap` is
`NULL`. -/
def nameOf (w : World) (t : Temp_temp) : Option String :=
  match w.F_tempMap with
  | none => none
  | some m => Temp_look m t

/-- The calls a client can make that touch the process-wide state: the catalog
accessors, and `Temp_newtemp()` (drawn by `F_newFrame`, `F_allocLocal` and by
other phases). -/
inductive CatalogOp where
  | opFP
  | opSP
  | opRV
  | opSpecial
  | opArg
  | opCallee
  | opCaller
  | opRegisters
  | opNewtemp
  deriving DecidableEq, Repr

/-- The state after one call. -/
def step (rtl : Bool) (w : World) : CatalogOp → World
  | .opFP => (F_FP w).2
  | .opSP => (F_SP w).2
  | .opRV => (F_RV w).2
  | .opSpecial => (F_special_registers rtl w).2
  | .opArg => (F_arg_registers w).2
  | .opCallee => (F_callee_saves rtl w).2
  | .opCaller => (F_caller_saves rtl w).2
  | .opRegisters => (F_registers rtl w).2
  | .opNewtemp => (newtemp w).2

/-- The state after a sequence of calls, first call first. -/
def run (rtl : Bool) (ops : List CatalogOp) (w : World) : World :=
  ops.foldl (step rtl) w

/-- The state `w2` extends `w1`: the generator has not gone back, every
temporary drawn before `w1` has the name it had, and every `static` that was
set in `w1` holds the same value. -/
structure Ext (w1 w2 : World) : Prop where
  temps_le : w1.temps ≤ w2.temps
  names : ∀ t, t < w1.temps → nameOf w2 t = nameOf w1 t
  fp : ∀ t, w1.fp = some t → w2.fp = some t
  sp : ∀ t, w1.sp = some t → w2.sp = some t
  rv : ∀ t, w1.rv = some t → w2.rv = some t
  spregs : w1.spregs ≠ [] → w2.spregs = w1.spregs
  rarg : w1.rarg ≠ [] → w2.rarg = w1.rarg
  callee_saves : w1.callee_saves ≠ [] → w2.callee_saves = w1.callee_saves
  caller_saves : w1.caller_saves ≠ [] → w2.caller_saves = w1.caller_saves

/-- The names of the argument registers, in calling order. -/
def argRegNames : List (Option String) :=
  [some "rdi", some "rsi", some "rdx", some "rcx", some "r8", some "r9"]

/-- What holds of the process-wide state after any sequence of calls from
process start. -/
structure CatalogInv (w : World) : Prop where
  fp_lt : ∀ t : Nat, w.fp = some t → t < w.temps
  sp_lt : ∀ t : Nat, w.sp = some t → t < w.temps
  rv_lt : ∀ t : Nat, w.rv = some t → t < w.temps
  rarg_lt : ∀ t : Nat, t ∈ w.rarg → t < w.temps
  rarg_ok : w.rarg ≠ [] →
    w.rarg.length = 6 ∧ w.rarg.Nodup ∧ w.rarg.map (nameOf w) = argRegNames
  spregs_ok : w.spregs ≠ [] →
    ∃ s f r, w.sp = some s ∧ w.fp = some f ∧ w.rv = some r ∧ w.spregs = [s, f, r]
  callee_ok : w.callee_saves ≠ [] →
    ∃ s f rest, w.sp = some s ∧ w.fp = some f ∧ w.callee_saves = s :: f :: rest
  caller_lt : ∀ t : Nat, t ∈ w.caller_saves → t < w.temps
  caller_ok : w.caller_saves ≠ [] →
    ∃ r r10 r11 args, w.rv = some r ∧ w.caller_saves = r :: r10 :: r11 :: args ∧
      args.length = 6
  disjoint : ∀ t : Nat, t ∈ w.rarg → t ∉ w.caller_saves.drop 3

/-! ## Fragments and procedure exit -/

/-- Modelled from the spec: the statements of the tree language (`tree.h`), the
"translated body" of a procedure fragment. -/
inductive T_stm where
  | T_Seq (left right : T_stm)
  | T_Label (label : Temp_label)
  | T_Move (dst src : T_exp)
  | T_Exp (e : T_exp)
  deriving DecidableEq, Repr

/-- Modelled from the spec: the variant tag of `struct F_frag_` (`frame.h`):
"a tagged variant — `StringFragment` or `ProcedureFragment`". -/
inductive F_fragKind where
  | F_stringFrag
  | F_procFrag
  deriving DecidableEq, Repr

/-- Modelled from the spec: the union `u` of `struct F_frag_` (`frame.h`):
`stringg` with `label` and `str`, `proc` with `body` and `frame`. -/
inductive F_fragU where
  | stringg (label : Temp_label) (str : String)
  | proc (body : T_stm) (frame : F_frame)
  deriving DecidableEq, Repr

/-- Modelled from the spec: `struct F_frag_` (`frame.h`), the tag `kind` next
to the union `u`. -/
structure F_frag where
  kind : F_fragKind
  u : F_fragU
  deriving DecidableEq, Repr

/-- The function `F_StringFrag(label, str)`.  The argument `cell` is the
content of the block that `checked_malloc` returns, which C leaves
unspecified; the function assigns `kind` and both members of `u.stringg`. -/
def F_StringFrag (label : Temp_label) (str : String) (cell : F_frag) : F_frag :=
  { cell with kind := F_fragKind.F_stringFrag, u := F_fragU.stringg label str }

/-- The function `F_ProcFrag(body, frame)`.  The argument `cell` is the content
of the block that `checked_malloc` returns; the function assigns
`u.proc.body` and `u.proc.frame` and nothing else. -/
def F_ProcFrag (body : T_stm) (frame : F_frame) (cell : F_frag) : F_frag :=
  { cell with u := F_fragU.proc body frame }

/-- The list type `F_fragList`; `NULL` is `[]`. -/
abbrev F_fragList := List F_frag

/-- The function `F_FragList(head, tail)`. -/
def F_FragList (head : F_frag) (tail : F_fragList) : F_fragList := head :: tail

/-- Modelled from the spec: the collector operation "`append(fragment)` adds to
the end", which lives in the translation phase and not in the translated
file; the new last cell is built with `F_FragList`. -/
def fragAppend : F_fragList → F_frag → F_fragList
  | [], f => F_FragList f []
  | head :: tail, f => F_FragList head (fragAppend tail f)

/-- Modelled from the spec: the collector operation "`drain()` exposes the full
sequence to the emission stage, in insertion order, with no reordering or
deduplication", which lives outside the translated file. -/
def fragDrain (l : F_fragList) : List F_frag := l

/-- Modelled from the spec: the instructions of `assem.h`, of which the
translated file only passes lists around: an operation with its destination,
source and jump lists, a label, a move. -/
inductive AS_instr where
  | AS_Oper (assem : String) (dst src : Temp_tempList) (jumps : List Temp_label)
  | AS_Label (assem : String) (label : Temp_label)
  | AS_Move (assem : String) (dst src : Temp_tempList)
  deriving DecidableEq, Repr

/-- The list type `AS_instrList` (`assem.h`). -/
abbrev AS_instrList := List AS_instr

/-- The function `F_procEntryExit2(body)`: `return body;`, marked
"dummy implementation" in the translated file. -/
def F_procEntryExit2 (body : AS_instrList) : AS_instrList := body

/-- A caller that performs `F_allocLocal` calls on one frame while other code
draws temporaries in between: before the call with flag `e` of an entry
`(gap, e)`, `gap` temporaries are drawn elsewhere.  Each entry of the result
pairs the generator value at the moment of the call with the access
returned. -/
def allocLocalsTrace : F_frame → List (Nat × Bool) → Nat → List (Nat × F_access)
  | _, [], _ => []
  | f, (gap, e) :: es, temps =>
    (temps + gap, (F_allocLocal f e (temps + gap)).1) ::
      allocLocalsTrace (F_allocLocal f e (temps + gap)).2.1 es
        (F_allocLocal f e (temps + gap)).2.2

/-! ## The loop and its recursive form -/

theorem makeFormalAccessList_loop_eq (fs : U_boolList) (i : Int) (acc : F_accessList)
    (temps : Nat) :
    makeFormalAccessList_loop fs i acc temps
      = (acc ++ (formalsFrom fs i temps).1, (formalsFrom fs i temps).2) := by
  induction fs generalizing i acc temps with
  | nil => simp [makeFormalAccessList_loop, formalsFrom]
  | cons head tail ih =>
    unfold makeFormalAccessList_loop formalsFrom
    split
    · rw [ih]; simp [Temp_newtemp]
    · rw [ih]; simp

theorem makeFormalAccessList_eq (fs : U_boolList) (temps : Nat) :
    makeFormalAccessList fs temps = formalsFrom fs 1 temps := by
  unfold makeFormalAccessList
  rw [makeFormalAccessList_loop_eq]
  simp

theorem F_formals_newFrame (l : Temp_label) (fs : U_boolList) (temps : Nat) :
    F_formals (F_newFrame l fs temps).1 = (formalsFrom fs 1 temps).1 := by
  simp [F_formals, F_newFrame, makeFormalAccessList_eq]

theorem formalsFrom_length (fs : U_boolList) (i : Int) (temps : Nat) :
    (formalsFrom fs i temps).1.length = fs.length := by
  induction fs generalizing i temps with
  | nil => simp [formalsFrom]
  | cons head tail ih =>
    unfold formalsFrom
    split <;> simp [ih]

/-- The loop hands out at most `F_K + 1 - i` registers when entered with
counter `i`. -/
theorem formalsFrom_countReg (fs : U_boolList) (i : Int) (temps : Nat) (hi : i ≤ 7) :
    ((formalsFrom fs i temps).1.countP isInReg : Int) + i ≤ 7 := by
  induction fs generalizing i temps with
  | nil => simpa [formalsFrom] using hi
  | cons head tail ih =>
    unfold formalsFrom
    split
    · rename_i h
      have h6 : i ≤ 6 := h.1
      have := ih (i + 1) (temps + 1) (by omega)
      simp only [List.countP_cons, isInReg, if_true]
      push_cast
      omega
    · have := ih i temps hi
      simp only [List.countP_cons, isInFrame, isInReg]
      simpa using this

/-- An escaping formal is frame-resident whatever the counter is. -/
theorem formalsFrom_escaping (fs : U_boolList) (i : Int) (temps : Nat) (k : Nat)
    (hk : fs[k]? = some true) :
    ∃ o, (formalsFrom fs i temps).1[k]? = some (InFrame o) := by
  induction fs generalizing i temps k with
  | nil => simp at hk
  | cons head tail ih =>
    unfold formalsFrom
    cases k with
    | zero =>
      simp at hk
      subst hk
      simp
    | succ k =>
      simp at hk
      split
      · simpa using ih (i + 1) (temps + 1) k hk
      · simpa using ih i temps k hk

/-- A non-escaping formal is register-resident as long as the counter plus the
number of formals before it stays within `F_K`. -/
theorem formalsFrom_nonescaping (fs : U_boolList) (i : Int) (temps : Nat) (k : Nat)
    (hk : fs[k]? = some false) (hi : i + k ≤ 6) :
    ∃ t, (formalsFrom fs i temps).1[k]? = some (InReg t) := by
  induction fs generalizing i temps k with
  | nil => simp at hk
  | cons head tail ih =>
    unfold formalsFrom
    cases k with
    | zero =>
      simp at hk
      subst hk
      have h6 : i ≤ F_K := by simpa [F_K] using hi
      simp [h6]
    | succ k =>
      simp at hk
      push_cast at hi
      split
      · simpa using ih (i + 1) (temps + 1) k hk (by omega)
      · simpa using ih i temps k hk (by omega)

/-- The part of the formal-offset invariant that the loop does keep: every
frame-resident formal offset is a multiple of the word size between 16 and
64. -/
theorem formalsFrom_offsets (fs : U_boolList) (i : Int) (temps : Nat) (h1 : 1 ≤ i)
    (h7 : i ≤ 7) :
    ∀ o ∈ frameOffsets (formalsFrom fs i temps).1, 16 ≤ o ∧ o ≤ 64 ∧ 8 ∣ o := by
  induction fs generalizing i temps with
  | nil => simp [formalsFrom, frameOffsets]
  | cons head tail ih =>
    unfold formalsFrom
    split
    · rename_i h
      have h6 : i ≤ 6 := h.1
      simpa [frameOffsets] using ih (i + 1) (temps + 1) (by omega) (by omega)
    · intro o ho
      simp only [frameOffsets, List.mem_cons] at ho
      rcases ho with rfl | ho
      · refine ⟨?_, ?_, ?_⟩
        · simp only [F_WORD_SIZE]; omega
        · simp only [F_WORD_SIZE]; omega
        · exact Dvd.intro_left _ rfl
      · exact ih i temps h1 h7 o ho

/-- What the loop computes at index `k` (0-based), in terms of the number `r`
of register-resident entries before it: entered with counter `i` and
temporary counter `temps`, the access is `InReg (temps + r)` when the flag is
`false` and `i + r ≤ F_K`, and `InFrame ((1 + (i + r)) * F_WORD_SIZE)`
otherwise. -/
theorem formalsFrom_get (fs : U_boolList) (i : Int) (temps : Nat) (k : Nat) (e : Bool)
    (hk : fs[k]? = some e) :
    (formalsFrom fs i temps).1[k]?
      = some (if i + (((formalsFrom fs i temps).1.take k).countP isInReg : Nat) ≤ F_K
                  ∧ e = false
              then InReg (temps + ((formalsFrom fs i temps).1.take k).countP isInReg)
              else InFrame ((1 + (i + (((formalsFrom fs i temps).1.take k).countP isInReg : Nat)))
                      * F_WORD_SIZE)) := by
  induction fs generalizing i temps k with
  | nil => simp at hk
  | cons head tail ih =>
    cases k with
    | zero =>
      simp at hk
      subst hk
      unfold formalsFrom
      split
      · rename_i h
        simp [h.1, h.2]
      · rename_i h
        simp only [List.take_zero, List.countP_nil, Nat.cast_zero, add_zero,
          List.getElem?_cons_zero]
        rw [if_neg h]
    | succ k =>
      simp only [List.getElem?_cons_succ] at hk
      unfold formalsFrom
      split
      · have := ih (i + 1) (temps + 1) k hk
        simp only [List.getElem?_cons_succ, List.take_succ_cons, List.countP_cons, isInReg,
          if_true, this]
        push_cast
        simp only [add_assoc, add_comm (1 : Int), add_comm (1 : Nat)]
      · have := ih i temps k hk
        simp only [List.getElem?_cons_succ, List.take_succ_cons, List.countP_cons, isInReg,
          this]
        simp

/-- The rule `makeFormalAccessList` follows, stated on the frame: with `r` the
number of register-resident formals before 0-based index `k`, the formal is
`InReg` of the `r`-th temporary drawn when its flag is `false` and `r < 6`, and
`InFrame ((2 + r) * 8)` otherwise. -/
theorem newFrame_formal_rule (l : Temp_label) (fs : U_boolList) (temps : Nat) (k : Nat)
    (e : Bool) (hk : fs[k]? = some e) :
    (F_formals (F_newFrame l fs temps).1)[k]?
      = some (if ((F_formals (F_newFrame l fs temps).1).take k).countP isInReg < 6 ∧ e = false
              then InReg (temps + ((F_formals (F_newFrame l fs temps).1).take k).countP isInReg)
              else InFrame ((2 + (((F_formals (F_newFrame l fs temps).1).take k).countP
                      isInReg : Nat)) * 8)) := by
  rw [F_formals_newFrame, formalsFrom_get fs 1 temps k e hk]
  congr 1
  have hiff : ((1 : Int) + (((formalsFrom fs 1 temps).1.take k).countP isInReg : Nat) ≤ F_K
      ∧ e = false) ↔ (((formalsFrom fs 1 temps).1.take k).countP isInReg < 6 ∧ e = false) := by
    simp only [F_K]
    constructor
    · rintro ⟨h1, h2⟩; exact ⟨by omega, h2⟩
    · rintro ⟨h1, h2⟩; exact ⟨by omega, h2⟩
  simp only [hiff, F_WORD_SIZE]
  split
  · rfl
  · congr 1
    ring

/-! ## Local allocation: lemmas on call sequences -/

theorem allocLocals_local_count (f : F_frame) (es : List Bool) (temps : Nat) :
    (allocLocals f es temps).2.1.local_count = f.local_count + es.length := by
  induction es generalizing f temps with
  | nil => simp [allocLocals]
  | cons e es ih =>
    simp only [allocLocals, ih, List.length_cons]
    cases e <;> simp [F_allocLocal] <;> omega

theorem allocLocals_length (f : F_frame) (es : List Bool) (temps : Nat) :
    (allocLocals f es temps).1.length = es.length := by
  induction es generalizing f temps with
  | nil => simp [allocLocals]
  | cons e es ih => simp [allocLocals, ih]

/-- The `k`-th (0-based) of `n` consecutive escaping allocations. -/
theorem allocLocals_escaping_get (f : F_frame) (n : Nat) (temps : Nat) (k : Nat)
    (hk : k < n) :
    (allocLocals f (List.replicate n true) temps).1[k]?
      = some (InFrame (-8 * (f.local_count + k + 1))) := by
  induction n generalizing f temps k with
  | zero => omega
  | succ n ih =>
    cases k with
    | zero =>
      simp [List.replicate_succ, allocLocals, F_allocLocal, F_WORD_SIZE]
      ring
    | succ k =>
      simp only [List.replicate_succ, allocLocals, List.getElem?_cons_succ]
      rw [ih _ _ k (by omega)]
      simp [F_allocLocal]
      ring

/-- Every frame offset handed out by a call sequence lies strictly below the
offset `-8 * local_count` of the frame it started from, not below
`-8 * (local_count + number of calls)`, and is a multiple of the word size. -/
theorem allocLocals_offsets_bound (f : F_frame) (es : List Bool) (temps : Nat) :
    ∀ o ∈ frameOffsets (allocLocals f es temps).1,
      -8 * (f.local_count + es.length) ≤ o ∧ o ≤ -8 * (f.local_count + 1) ∧ 8 ∣ o := by
  induction es generalizing f temps with
  | nil => simp [allocLocals, frameOffsets]
  | cons e es ih =>
    intro o ho
    cases e with
    | true =>
      simp only [allocLocals, F_allocLocal, if_true, frameOffsets, List.mem_cons] at ho
      rcases ho with rfl | ho
      · refine ⟨?_, ?_, ?_⟩
        · simp only [F_WORD_SIZE, List.length_cons]; push_cast; omega
        · simp only [F_WORD_SIZE]; omega
        · exact Dvd.intro _ rfl
      · have := ih _ _ o ho
        simp only [List.length_cons] at this ⊢
        push_cast
        omega
    | false =>
      simp only [allocLocals, F_allocLocal, frameOffsets, Bool.false_eq_true, if_false] at ho
      have := ih _ _ o ho
      simp only [List.length_cons] at this ⊢
      push_cast
      omega

/-- Frame offsets handed out by a call sequence strictly decrease in call
order. -/
theorem allocLocals_offsets_decreasing (f : F_frame) (es : List Bool) (temps : Nat) :
    (frameOffsets (allocLocals f es temps).1).Pairwise (fun earlier later => later < earlier) := by
  induction es generalizing f temps with
  | nil => simp [allocLocals, frameOffsets]
  | cons e es ih =>
    cases e with
    | true =>
      simp only [allocLocals, F_allocLocal, if_true, frameOffsets, List.pairwise_cons]
      refine ⟨?_, ih _ _⟩
      intro o ho
      have := (allocLocals_offsets_bound _ es temps o ho).2.1
      simp only [F_WORD_SIZE]
      simp only at this
      omega
    | false =>
      simp only [allocLocals, F_allocLocal, frameOffsets, Bool.false_eq_true, if_false]
      exact ih _ _

/-- The `int` range is respected: on a fresh frame, fewer than `2^28` calls
keep `local_count` and every offset inside the signed 32-bit range, so the
unbounded integers of the embedding agree with the C arithmetic there. -/
theorem allocLocals_in_int_range (l : Temp_label) (fs : U_boolList) (temps : Nat)
    (es : List Bool) (hlen : es.length < 2 ^ 28) :
    (allocLocals (F_newFrame l fs temps).1 es (F_newFrame l fs temps).2).2.1.local_count
        < 2 ^ 31 ∧
    ∀ o ∈ frameOffsets (allocLocals (F_newFrame l fs temps).1 es (F_newFrame l fs temps).2).1,
      -(2 ^ 31) ≤ o ∧ o < 2 ^ 31 := by
  constructor
  · rw [allocLocals_local_count]
    simp only [F_newFrame]
    norm_num at hlen ⊢
    omega
  · intro o ho
    have := allocLocals_offsets_bound _ es _ o ho
    simp only [F_newFrame] at this
    norm_num at hlen ⊢
    omega

/-! ## Formal parameters (`makeFormalAccessList`, `F_newFrame`) -/

/-- C1: the claim asks for `InFrame((1 + i) * 8)` at 1-based position `i`, with
the position counter advancing for every formal.  The code advances its
counter only for register-resident formals: for the flags `[true, true]` the
access at position 2 is `InFrame 16`, not `InFrame 24`, and after six escaping
formals the non-escaping formal at position 7 is still `InReg`. -/
theorem C1_position_counter_stalls_on_frame_formals (l : Temp_label) (temps : Nat) :
    F_formals (F_newFrame l [true, true] temps).1 = [InFrame 16, InFrame 16] ∧
    (F_formals (F_newFrame l [true, true] temps).1)[2 - 1]?
      ≠ some (InFrame ((1 + 2) * 8)) ∧
    (F_formals (F_newFrame l [true, true, true, true, true, true, false] temps).1)[7 - 1]?
      = some (InReg temps) := by
  simp [F_formals, F_newFrame, makeFormalAccessList, makeFormalAccessList_loop, F_K,
    F_WORD_SIZE, Temp_newtemp]

/-- C2: the claim asks for pairwise distinct frame offsets of formals.  For the
flags `[true, true]` the code gives both formals the offset 16, so the offsets
of the frame are not distinct. -/
theorem C2_formal_offsets_collide (l : Temp_label) (temps : Nat) :
    frameOffsets (F_formals (F_newFrame l [true, true] temps).1) = [16, 16] ∧
    ¬ (frameOffsets (F_formals (F_newFrame l [true, true] temps).1)).Nodup := by
  simp [F_formals, F_newFrame, makeFormalAccessList, makeFormalAccessList_loop, F_K,
    F_WORD_SIZE, frameOffsets]

/-- The part of C2 that the code keeps: every frame-resident formal offset of
a new frame is a multiple of 8 and at least 16. -/
theorem newFrame_formal_offsets_range (l : Temp_label) (fs : U_boolList) (temps : Nat) :
    ∀ o ∈ frameOffsets (F_formals (F_newFrame l fs temps).1), 16 ≤ o ∧ o ≤ 64 ∧ 8 ∣ o := by
  rw [F_formals_newFrame]
  exact formalsFrom_offsets fs 1 temps (by decide) (by decide)

/-- C3: for every escape-flag list of length `n` the formal-access list of the
new frame has length `n` and holds at most 6 `InReg` entries. -/
theorem C3_formals_length_and_register_budget (l : Temp_label) (fs : U_boolList)
    (temps : Nat) :
    (F_formals (F_newFrame l fs temps).1).length = fs.length ∧
    (F_formals (F_newFrame l fs temps).1).countP isInReg ≤ 6 := by
  rw [F_formals_newFrame]
  refine ⟨formalsFrom_length fs 1 temps, ?_⟩
  have := formalsFrom_countReg fs 1 temps (by decide)
  omega

/-- C4: at every 1-based position `p` whose flag is `true` the access is
`InFrame` and not `InReg`, also when `p ≤ 6`. -/
theorem C4_escaping_formal_is_frame_resident (l : Temp_label) (fs : U_boolList)
    (temps : Nat) (p : Nat) (_hp : 1 ≤ p) (hesc : fs[p - 1]? = some true) :
    (∃ o, (F_formals (F_newFrame l fs temps).1)[p - 1]? = some (InFrame o)) ∧
    ∀ t, (F_formals (F_newFrame l fs temps).1)[p - 1]? ≠ some (InReg t) := by
  rw [F_formals_newFrame]
  obtain ⟨o, ho⟩ := formalsFrom_escaping fs 1 temps (p - 1) hesc
  refine ⟨⟨o, ho⟩, ?_⟩
  intro t
  rw [ho]
  simp

theorem C4_escaping_formal_is_frame_resident_witness :
    (1 ≤ 2 ∧ [false, true, false][2 - 1]? = some true) ∧
    ((∃ o, (F_formals (F_newFrame "f" [false, true, false] 100).1)[2 - 1]?
        = some (InFrame o)) ∧
      ∀ t, (F_formals (F_newFrame "f" [false, true, false] 100).1)[2 - 1]?
        ≠ some (InReg t)) :=
  ⟨⟨by decide, by decide⟩,
    C4_escaping_formal_is_frame_resident "f" [false, true, false] 100 2 (by decide)
      (by decide)⟩

/-- C5: every non-escaping formal at a 1-based position `p ≤ 6` is `InReg`; in
particular positions 1 and 2 of a list whose first two flags are `false`. -/
theorem C5_nonescaping_formal_within_budget_is_register (l : Temp_label)
    (fs : U_boolList) (temps : Nat) (p : Nat) (hp : 1 ≤ p) (hp6 : p ≤ 6)
    (hne : fs[p - 1]? = some false) :
    ∃ t, (F_formals (F_newFrame l fs temps).1)[p - 1]? = some (InReg t) := by
  rw [F_formals_newFrame]
  apply formalsFrom_nonescaping fs 1 temps (p - 1) hne
  omega

theorem C5_nonescaping_formal_within_budget_is_register_witness :
    ((1 ≤ 1 ∧ 1 ≤ 6 ∧ [false, false][1 - 1]? = some false) ∧
      ∃ t, (F_formals (F_newFrame "f" [false, false] 100).1)[1 - 1]? = some (InReg t)) ∧
    ((1 ≤ 2 ∧ 2 ≤ 6 ∧ [false, false][2 - 1]? = some false) ∧
      ∃ t, (F_formals (F_newFrame "f" [false, false] 100).1)[2 - 1]? = some (InReg t)) :=
  ⟨⟨⟨by decide, by decide, by decide⟩,
      C5_nonescaping_formal_within_budget_is_register "f" [false, false] 100 1
        (by decide) (by decide) (by decide)⟩,
    ⟨⟨by decide, by decide, by decide⟩,
      C5_nonescaping_formal_within_budget_is_register "f" [false, false] 100 2
        (by decide) (by decide) (by decide)⟩⟩

/-- C10: the frame `F_newFrame l fs` has name `l`, `local_count = 0` and the
access list computed by `makeFormalAccessList` for `fs` (of the length of
`fs`); for the empty flag list the access list is empty. -/
theorem C10_newFrame_fields (l : Temp_label) (fs : U_boolList) (temps : Nat) :
    F_name (F_newFrame l fs temps).1 = l ∧
    (F_newFrame l fs temps).1.local_count = 0 ∧
    F_formals (F_newFrame l fs temps).1 = (makeFormalAccessList fs temps).1 ∧
    (F_formals (F_newFrame l fs temps).1).length = fs.length ∧
    F_formals (F_newFrame l [] temps).1 = [] := by
  refine ⟨rfl, rfl, rfl, ?_, rfl⟩
  rw [F_formals_newFrame]
  exact formalsFrom_length fs 1 temps

/-! ## Local variables (`F_allocLocal`) -/

/-- C6, as claimed, fails: on a fresh frame one non-escaping `F_allocLocal`
moves `local_count` from 0 to 1. -/
theorem C6_nonescaping_local_moves_counter :
    (F_newFrame "f" [] 100).1.local_count = 0 ∧
    (F_allocLocal (F_newFrame "f" [] 100).1 false (F_newFrame "f" [] 100).2).2.1.local_count
      = 1 ∧
    (F_allocLocal (F_newFrame "f" [] 100).1 false (F_newFrame "f" [] 100).2).2.1.local_count
      ≠ (F_newFrame "f" [] 100).1.local_count := by
  simp [F_allocLocal, F_newFrame]

/-- C6, amended: a non-escaping `F_allocLocal(f, false)` returns `InReg` of the
fresh temporary (the current value of the generator, which the call consumes) and
increases `local_count` by exactly one. -/
theorem C6_nonescaping_local_is_register_and_counted (f : F_frame) (temps : Nat) :
    (F_allocLocal f false temps).1 = InReg temps ∧
    (F_allocLocal f false temps).2.2 = temps + 1 ∧
    (F_allocLocal f false temps).2.1.local_count = f.local_count + 1 := by
  simp [F_allocLocal, Temp_newtemp]

/-- C7: on a frame fresh from `F_newFrame`, for every `n ≥ 1` the `n`-th of `n`
consecutive escaping `F_allocLocal` calls returns `InFrame (-8 * n)` and leaves
`local_count = n`. -/
theorem C7_nth_escaping_local_offset (l : Temp_label) (fs : U_boolList) (temps : Nat)
    (n : Nat) (hn : 1 ≤ n) :
    (allocLocals (F_newFrame l fs temps).1 (List.replicate n true)
        (F_newFrame l fs temps).2).1[n - 1]? = some (InFrame (-8 * (n : Int))) ∧
    (allocLocals (F_newFrame l fs temps).1 (List.replicate n true)
        (F_newFrame l fs temps).2).2.1.local_count = (n : Int) := by
  constructor
  · rw [allocLocals_escaping_get _ n _ (n - 1) (by omega)]
    simp only [F_newFrame]
    congr 2
    omega
  · rw [allocLocals_local_count]
    simp [F_newFrame]

theorem C7_nth_escaping_local_offset_witness :
    (1 ≤ 1 ∧
      ((allocLocals (F_newFrame "f" [false, true] 100).1 (List.replicate 1 true)
          (F_newFrame "f" [false, true] 100).2).1[1 - 1]? = some (InFrame (-8 * ((1 : Nat) : Int))) ∧
        (allocLocals (F_newFrame "f" [false, true] 100).1 (List.replicate 1 true)
          (F_newFrame "f" [false, true] 100).2).2.1.local_count = ((1 : Nat) : Int))) ∧
    (1 ≤ 2 ∧
      ((allocLocals (F_newFrame "f" [false, true] 100).1 (List.replicate 2 true)
          (F_newFrame "f" [false, true] 100).2).1[2 - 1]? = some (InFrame (-8 * ((2 : Nat) : Int))) ∧
        (allocLocals (F_newFrame "f" [false, true] 100).1 (List.replicate 2 true)
          (F_newFrame "f" [false, true] 100).2).2.1.local_count = ((2 : Nat) : Int))) :=
  ⟨⟨by decide, C7_nth_escaping_local_offset "f" [false, true] 100 1 (by decide)⟩,
    ⟨by decide, C7_nth_escaping_local_offset "f" [false, true] 100 2 (by decide)⟩⟩

/-- C8: for every sequence of `F_allocLocal` calls on a frame fresh from
`F_newFrame`, the `InFrame` offsets returned are negative multiples of 8, each
strictly smaller than every one returned earlier, hence pairwise distinct
(integers unbounded). -/
theorem C8_local_offsets_negative_decreasing_distinct (l : Temp_label) (fs : U_boolList)
    (temps : Nat) (es : List Bool) :
    (∀ o ∈ frameOffsets
        (allocLocals (F_newFrame l fs temps).1 es (F_newFrame l fs temps).2).1,
      o < 0 ∧ 8 ∣ o) ∧
    (frameOffsets
        (allocLocals (F_newFrame l fs temps).1 es (F_newFrame l fs temps).2).1).Pairwise
      (fun earlier later => later < earlier) ∧
    (frameOffsets
        (allocLocals (F_newFrame l fs temps).1 es (F_newFrame l fs temps).2).1).Nodup := by
  have hdec := allocLocals_offsets_decreasing (F_newFrame l fs temps).1 es
    (F_newFrame l fs temps).2
  refine ⟨?_, hdec, ?_⟩
  · intro o ho
    have := allocLocals_offsets_bound _ es _ o ho
    simp only [F_newFrame] at this
    exact ⟨by omega, this.2.2⟩
  · exact hdec.imp (fun h => (ne_of_lt h).symm)

/-! ## Lowering an access to a tree expression (`F_Exp`) -/

/-- C9: `F_Exp (InFrame o) p` is `T_Mem (T_Binop T_plus p (T_Const o))`,
`F_Exp (InReg t) p` is `T_Temp t`, and an access has no other form, so the two
equations determine `F_Exp` on every input. -/
theorem C9_F_Exp_cases :
    (∀ (o : Int) (p : T_exp), F_Exp (InFrame o) p = T_Mem (T_Binop T_plus p (T_Const o))) ∧
    (∀ (t : Temp_temp) (p : T_exp), F_Exp (InReg t) p = T_Temp t) ∧
    (∀ (a : F_access) (p : T_exp),
      (∃ o, a = InFrame o ∧ F_Exp a p = T_Mem (T_Binop T_plus p (T_Const o))) ∨
      (∃ t, a = InReg t ∧ F_Exp a p = T_Temp t)) := by
  refine ⟨fun _ _ => rfl, fun _ _ => rfl, ?_⟩
  intro a p
  cases a with
  | InFrame o => exact Or.inl ⟨o, rfl, rfl⟩
  | InReg t => exact Or.inr ⟨t, rfl, rfl⟩

/-! ## Frame fields under local allocation -/

theorem allocLocals_name_formals (f : F_frame) (es : List Bool) (temps : Nat) :
    (allocLocals f es temps).2.1.name = f.name ∧
    (allocLocals f es temps).2.1.formals = f.formals := by
  induction es generalizing f temps with
  | nil => simp [allocLocals]
  | cons e es ih =>
    simp only [allocLocals]
    rw [(ih _ _).1, (ih _ _).2]
    cases e <;> simp [F_allocLocal]

/-- C11: `F_allocLocal(f, e)` leaves the name and the formal-access list of the
frame as they were, for either flag, so neither changes over any sequence of
calls and the length of the formal list stays what `F_newFrame` made it. -/
theorem C11_allocLocal_keeps_name_and_formals (f : F_frame) (e : Bool) (temps : Nat) :
    F_name (F_allocLocal f e temps).2.1 = F_name f ∧
    F_formals (F_allocLocal f e temps).2.1 = F_formals f ∧
    (∀ (es : List Bool) (temps1 : Nat),
      F_name (allocLocals f es temps1).2.1 = F_name f ∧
      F_formals (allocLocals f es temps1).2.1 = F_formals f) ∧
    (∀ (l : Temp_label) (fs : U_boolList) (es : List Bool),
      (F_formals (allocLocals (F_newFrame l fs temps).1 es
        (F_newFrame l fs temps).2).2.1).length = fs.length) := by
  refine ⟨?_, ?_, ?_, ?_⟩
  · cases e <;> simp [F_allocLocal, F_name]
  · cases e <;> simp [F_allocLocal, F_formals]
  · intro es temps1
    exact allocLocals_name_formals f es temps1
  · intro l fs es
    have h := (allocLocals_name_formals (F_newFrame l fs temps).1 es
      (F_newFrame l fs temps).2).2
    have h2 := formalsFrom_length fs 1 temps
    rw [← F_formals_newFrame l fs temps] at h2
    simp only [F_formals] at h2 ⊢
    rw [h, h2]

/-! ## Fragments -/

theorem fragAppend_eq (l : F_fragList) (f : F_frag) : fragAppend l f = l ++ [f] := by
  induction l with
  | nil => rfl
  | cons head tail ih => simp [fragAppend, F_FragList, ih]

theorem foldl_fragAppend (fs : List F_frag) (acc : F_fragList) :
    fs.foldl fragAppend acc = acc ++ fs := by
  induction fs generalizing acc with
  | nil => simp
  | cons f fs ih => simp [ih, fragAppend_eq]

/-- C17: fragments appended one after another to the empty fragment list are
read back exactly as they were appended: same elements, same order, none
dropped or repeated. -/
theorem C17_fragment_collection_round_trip (fs : List F_frag) :
    fragDrain (fs.foldl fragAppend []) = fs := by
  simp [fragDrain, foldl_fragAppend]

/-- C18: the claim asks every fragment constructor to set the variant tag.
`F_StringFrag` does; `F_ProcFrag` stores frame and body but leaves `kind` as
the allocated block held it, so on a block whose tag bits read `F_stringFrag`
the procedure fragment is tagged as a string fragment. -/
theorem C18_ProcFrag_leaves_tag_unset (body : T_stm) (frame : F_frame)
    (label : Temp_label) (str : String) (cell : F_frag) :
    (F_ProcFrag body frame cell).kind = cell.kind ∧
    (F_ProcFrag body frame cell).u = F_fragU.proc body frame ∧
    (F_ProcFrag body frame (F_StringFrag label str cell)).kind = F_fragKind.F_stringFrag ∧
    (F_ProcFrag body frame (F_StringFrag label str cell)).kind ≠ F_fragKind.F_procFrag ∧
    (F_StringFrag label str cell).kind = F_fragKind.F_stringFrag ∧
    (F_StringFrag label str cell).u = F_fragU.stringg label str := by
  simp [F_ProcFrag, F_StringFrag]

/-! ## Procedure exit -/

/-- C16: the claim asks for `body` followed by one appended instruction.
`F_procEntryExit2` returns `body` itself: nothing is appended and the length
is that of `body`, not one more. -/
theorem C16_procEntryExit2_appends_nothing (body : AS_instrList) :
    F_procEntryExit2 body = body ∧
    (F_procEntryExit2 body).length = body.length ∧
    (F_procEntryExit2 body).length ≠ body.length + 1 ∧
    ∀ sink : AS_instr, F_procEntryExit2 body ≠ body ++ [sink] := by
  simp [F_procEntryExit2]

/-! ## Register catalog: single-shot initialisation -/

theorem F_FP_twice (w : World) : F_FP (F_FP w).2 = F_FP w := by
  unfold F_FP
  cases h : w.fp with
  | none => cases hm : w.F_tempMap <;> simp [newtemp, F_add_to_map, hm]
  | some t => simp [h]

theorem F_SP_twice (w : World) : F_SP (F_SP w).2 = F_SP w := by
  unfold F_SP
  cases h : w.sp with
  | none => cases hm : w.F_tempMap <;> simp [newtemp, F_add_to_map, hm]
  | some t => simp [h]

theorem F_RV_twice (w : World) : F_RV (F_RV w).2 = F_RV w := by
  unfold F_RV
  cases h : w.rv with
  | none => cases hm : w.F_tempMap <;> simp [newtemp, F_add_to_map, hm]
  | some t => simp [h]

theorem F_special_registers_twice (rtl : Bool) (w : World) :
    F_special_registers rtl (F_special_registers rtl w).2 = F_special_registers rtl w := by
  by_cases h : w.spregs = []
  · cases rtl <;> simp [F_special_registers, h]
  · simp [F_special_registers, h]

theorem F_arg_registers_twice (w : World) :
    F_arg_registers (F_arg_registers w).2 = F_arg_registers w := by
  by_cases h : w.rarg = []
  · simp [F_arg_registers, h, F_make_arg_regs]
  · simp [F_arg_registers, h]

theorem F_callee_saves_twice (rtl : Bool) (w : World) :
    F_callee_saves rtl (F_callee_saves rtl w).2 = F_callee_saves rtl w := by
  by_cases h : w.callee_saves = []
  · cases rtl <;> simp [F_callee_saves, h, F_make_calle_saves]
  · simp [F_callee_saves, h]

theorem F_caller_saves_twice (rtl : Bool) (w : World) :
    F_caller_saves rtl (F_caller_saves rtl w).2 = F_caller_saves rtl w := by
  by_cases h : w.caller_saves = []
  · cases rtl <;> simp [F_caller_saves, h, F_make_caller_saves]
  · simp [F_caller_saves, h]

/-- C15: for each of `F_FP`, `F_SP`, `F_RV`, `F_special_registers`,
`F_arg_registers`, `F_callee_saves` and `F_caller_saves`, in every state and
for either argument evaluation order, a second call returns the value of the
first call and leaves the whole state (the temporary counter and the name map
included) as the first call left it. -/
theorem C15_catalog_accessors_single_shot (rtl : Bool) (w : World) :
    (F_FP (F_FP w).2 = ((F_FP w).1, (F_FP w).2)) ∧
    (F_SP (F_SP w).2 = ((F_SP w).1, (F_SP w).2)) ∧
    (F_RV (F_RV w).2 = ((F_RV w).1, (F_RV w).2)) ∧
    (F_special_registers rtl (F_special_registers rtl w).2
      = ((F_special_registers rtl w).1, (F_special_registers rtl w).2)) ∧
    (F_arg_registers (F_arg_registers w).2
      = ((F_arg_registers w).1, (F_arg_registers w).2)) ∧
    (F_callee_saves rtl (F_callee_saves rtl w).2
      = ((F_callee_saves rtl w).1, (F_callee_saves rtl w).2)) ∧
    (F_caller_saves rtl (F_caller_saves rtl w).2
      = ((F_caller_saves rtl w).1, (F_caller_saves rtl w).2)) :=
  ⟨F_FP_twice w, F_SP_twice w, F_RV_twice w, F_special_registers_twice rtl w,
    F_arg_registers_twice w, F_callee_saves_twice rtl w, F_caller_saves_twice rtl w⟩

/-! ## Register catalog: what a call changes -/

section projections

variable (str : String) (k : Temp_temp) (w : World)

@[simp] theorem F_add_to_map_temps : (F_add_to_map str k w).temps = w.temps := by
  unfold F_add_to_map; cases w.F_tempMap <;> rfl

@[simp] theorem F_add_to_map_fp : (F_add_to_map str k w).fp = w.fp := by
  unfold F_add_to_map; cases w.F_tempMap <;> rfl

@[simp] theorem F_add_to_map_sp : (F_add_to_map str k w).sp = w.sp := by
  unfold F_add_to_map; cases w.F_tempMap <;> rfl

@[simp] theorem F_add_to_map_rv : (F_add_to_map str k w).rv = w.rv := by
  unfold F_add_to_map; cases w.F_tempMap <;> rfl

@[simp] theorem F_add_to_map_spregs : (F_add_to_map str k w).spregs = w.spregs := by
  unfold F_add_to_map; cases w.F_tempMap <;> rfl

@[simp] theorem F_add_to_map_rarg : (F_add_to_map str k w).rarg = w.rarg := by
  unfold F_add_to_map; cases w.F_tempMap <;> rfl

@[simp] theorem F_add_to_map_callee_saves :
    (F_add_to_map str k w).callee_saves = w.callee_saves := by
  unfold F_add_to_map; cases w.F_tempMap <;> rfl

@[simp] theorem F_add_to_map_caller_saves :
    (F_add_to_map str k w).caller_saves = w.caller_saves := by
  unfold F_add_to_map; cases w.F_tempMap <;> rfl

/-- Looking a name up after `F_add_to_map`: the new binding for its own
temporary, the old table for any other. -/
@[simp] theorem nameOf_F_add_to_map (t : Temp_temp) :
    nameOf (F_add_to_map str k w) t = if k = t then some str else nameOf w t := by
  unfold F_add_to_map nameOf
  cases h : w.F_tempMap <;> simp [Temp_enter, Temp_look, Temp_name]

@[simp] theorem newtemp_fst : (newtemp w).1 = w.temps := rfl

@[simp] theorem newtemp_snd_temps : (newtemp w).2.temps = w.temps + 1 := rfl

@[simp] theorem newtemp_snd_fp : (newtemp w).2.fp = w.fp := rfl

@[simp] theorem newtemp_snd_sp : (newtemp w).2.sp = w.sp := rfl

@[simp] theorem newtemp_snd_rv : (newtemp w).2.rv = w.rv := rfl

@[simp] theorem newtemp_snd_spregs : (newtemp w).2.spregs = w.spregs := rfl

@[simp] theorem newtemp_snd_rarg : (newtemp w).2.rarg = w.rarg := rfl

@[simp] theorem newtemp_snd_callee_saves : (newtemp w).2.callee_saves = w.callee_saves := rfl

@[simp] theorem newtemp_snd_caller_saves : (newtemp w).2.caller_saves = w.caller_saves := rfl

@[simp] theorem nameOf_newtemp (t : Temp_temp) : nameOf (newtemp w).2 t = nameOf w t := rfl

end projections

theorem Ext.refl (w : World) : Ext w w :=
  ⟨le_refl _, fun _ _ => rfl, fun _ h => h, fun _ h => h, fun _ h => h,
    fun _ => rfl, fun _ => rfl, fun _ => rfl, fun _ => rfl⟩

theorem Ext.trans {w1 w2 w3 : World} (h12 : Ext w1 w2) (h23 : Ext w2 w3) : Ext w1 w3 where
  temps_le := le_trans h12.temps_le h23.temps_le
  names := fun t ht => by
    rw [h23.names t (lt_of_lt_of_le ht h12.temps_le), h12.names t ht]
  fp := fun t h => h23.fp t (h12.fp t h)
  sp := fun t h => h23.sp t (h12.sp t h)
  rv := fun t h => h23.rv t (h12.rv t h)
  spregs := fun h => by
    have h1 := h12.spregs h
    rw [h23.spregs (by rw [h1]; exact h), h1]
  rarg := fun h => by
    have h1 := h12.rarg h
    rw [h23.rarg (by rw [h1]; exact h), h1]
  callee_saves := fun h => by
    have h1 := h12.callee_saves h
    rw [h23.callee_saves (by rw [h1]; exact h), h1]
  caller_saves := fun h => by
    have h1 := h12.caller_saves h
    rw [h23.caller_saves (by rw [h1]; exact h), h1]

theorem Ext.newtemp (w : World) : Ext w (newtemp w).2 :=
  ⟨by simp, fun _ _ => rfl, fun _ h => h, fun _ h => h, fun _ h => h,
    fun _ => rfl, fun _ => rfl, fun _ => rfl, fun _ => rfl⟩

/-- Binding a temporary that was drawn after `w0` keeps the extension of
`w0`. -/
theorem Ext.add {w0 w : World} (h : Ext w0 w) (str : String) (k : Temp_temp)
    (hk : w0.temps ≤ k) : Ext w0 (F_add_to_map str k w) where
  temps_le := by simpa using h.temps_le
  names := fun t ht => by
    have : k ≠ t := Nat.ne_of_gt (lt_of_lt_of_le ht hk)
    simp [this, h.names t ht]
  fp := by simpa using h.fp
  sp := by simpa using h.sp
  rv := by simpa using h.rv
  spregs := by simpa using h.spregs
  rarg := by simpa using h.rarg
  callee_saves := by simpa using h.callee_saves
  caller_saves := by simpa using h.caller_saves

theorem F_FP_ext (w : World) : Ext w (F_FP w).2 := by
  unfold F_FP
  cases h : w.fp with
  | some t => exact Ext.refl w
  | none =>
    refine ⟨by simp, fun t ht => ?_, by simp [h], by simp, by simp, by simp, by simp,
      by simp, by simp⟩
    have : (newtemp w).1 ≠ t := Nat.ne_of_gt ht
    rw [nameOf_F_add_to_map, if_neg this]
    rfl

theorem F_SP_ext (w : World) : Ext w (F_SP w).2 := by
  unfold F_SP
  cases h : w.sp with
  | some t => exact Ext.refl w
  | none =>
    refine ⟨by simp, fun t ht => ?_, by simp, by simp [h], by simp, by simp, by simp,
      by simp, by simp⟩
    have : (newtemp w).1 ≠ t := Nat.ne_of_gt ht
    rw [nameOf_F_add_to_map, if_neg this]
    rfl

theorem F_RV_ext (w : World) : Ext w (F_RV w).2 := by
  unfold F_RV
  cases h : w.rv with
  | some t => exact Ext.refl w
  | none =>
    refine ⟨by simp, fun t ht => ?_, by simp, by simp, by simp [h], by simp, by simp,
      by simp, by simp⟩
    have : (newtemp w).1 ≠ t := Nat.ne_of_gt ht
    rw [nameOf_F_add_to_map, if_neg this]
    rfl

theorem F_make_arg_regs_ext (w : World) : Ext w (F_make_arg_regs w).2 := by
  unfold F_make_arg_regs
  refine Ext.add (Ext.add (Ext.add (Ext.add (Ext.add (Ext.add ?_ _ _ ?_) _ _ ?_) _ _ ?_)
    _ _ ?_) _ _ ?_) _ _ ?_
  · exact (Ext.newtemp w).trans ((Ext.newtemp _).trans ((Ext.newtemp _).trans
      ((Ext.newtemp _).trans ((Ext.newtemp _).trans (Ext.newtemp _)))))
  all_goals (simp <;> omega)

@[simp] theorem F_FP_snd_fp (w : World) : (F_FP w).2.fp = some (F_FP w).1 := by
  unfold F_FP; cases h : w.fp <;> simp [h]

@[simp] theorem F_FP_snd_sp (w : World) : (F_FP w).2.sp = w.sp := by
  unfold F_FP; cases h : w.fp <;> simp

@[simp] theorem F_FP_snd_rv (w : World) : (F_FP w).2.rv = w.rv := by
  unfold F_FP; cases h : w.fp <;> simp

@[simp] theorem F_FP_snd_spregs (w : World) : (F_FP w).2.spregs = w.spregs := by
  unfold F_FP; cases h : w.fp <;> simp

@[simp] theorem F_FP_snd_rarg (w : World) : (F_FP w).2.rarg = w.rarg := by
  unfold F_FP; cases h : w.fp <;> simp

@[simp] theorem F_FP_snd_callee_saves (w : World) : (F_FP w).2.callee_saves = w.callee_saves := by
  unfold F_FP; cases h : w.fp <;> simp

@[simp] theorem F_FP_snd_caller_saves (w : World) : (F_FP w).2.caller_saves = w.caller_saves := by
  unfold F_FP; cases h : w.fp <;> simp

@[simp] theorem F_SP_snd_fp (w : World) : (F_SP w).2.fp = w.fp := by
  unfold F_SP; cases h : w.sp <;> simp

@[simp] theorem F_SP_snd_sp (w : World) : (F_SP w).2.sp = some (F_SP w).1 := by
  unfold F_SP; cases h : w.sp <;> simp [h]

@[simp] theorem F_SP_snd_rv (w : World) : (F_SP w).2.rv = w.rv := by
  unfold F_SP; cases h : w.sp <;> simp

@[simp] theorem F_SP_snd_spregs (w : World) : (F_SP w).2.spregs = w.spregs := by
  unfold F_SP; cases h : w.sp <;> simp

@[simp] theorem F_SP_snd_rarg (w : World) : (F_SP w).2.rarg = w.rarg := by
  unfold F_SP; cases h : w.sp <;> simp

@[simp] theorem F_SP_snd_callee_saves (w : World) : (F_SP w).2.callee_saves = w.callee_saves := by
  unfold F_SP; cases h : w.sp <;> simp

@[simp] theorem F_SP_snd_caller_saves (w : World) : (F_SP w).2.caller_saves = w.caller_saves := by
  unfold F_SP; cases h : w.sp <;> simp

@[simp] theorem F_RV_snd_fp (w : World) : (F_RV w).2.fp = w.fp := by
  unfold F_RV; cases h : w.rv <;> simp

@[simp] theorem F_RV_snd_sp (w : World) : (F_RV w).2.sp = w.sp := by
  unfold F_RV; cases h : w.rv <;> simp

@[simp] theorem F_RV_snd_rv (w : World) : (F_RV w).2.rv = some (F_RV w).1 := by
  unfold F_RV; cases h : w.rv <;> simp [h]

@[simp] theorem F_RV_snd_spregs (w : World) : (F_RV w).2.spregs = w.spregs := by
  unfold F_RV; cases h : w.rv <;> simp

@[simp] theorem F_RV_snd_rarg (w : World) : (F_RV w).2.rarg = w.rarg := by
  unfold F_RV; cases h : w.rv <;> simp

@[simp] theorem F_RV_snd_callee_saves (w : World) : (F_RV w).2.callee_saves = w.callee_saves := by
  unfold F_RV; cases h : w.rv <;> simp

@[simp] theorem F_RV_snd_caller_saves (w : World) : (F_RV w).2.caller_saves = w.caller_saves := by
  unfold F_RV; cases h : w.rv <;> simp

/-! ## Register catalog: the invariant is kept by every call -/

theorem CatalogInv.init (temps0 : Nat) : CatalogInv (initWorld temps0) := by
  constructor <;> simp [initWorld]

theorem CatalogInv.after_newtemp {w : World} (h : CatalogInv w) : CatalogInv (newtemp w).2 where
  fp_lt := fun t ht => Nat.lt_succ_of_lt (h.fp_lt t ht)
  sp_lt := fun t ht => Nat.lt_succ_of_lt (h.sp_lt t ht)
  rv_lt := fun t ht => Nat.lt_succ_of_lt (h.rv_lt t ht)
  rarg_lt := fun t ht => Nat.lt_succ_of_lt (h.rarg_lt t ht)
  rarg_ok := h.rarg_ok
  spregs_ok := h.spregs_ok
  callee_ok := h.callee_ok
  caller_lt := fun t ht => Nat.lt_succ_of_lt (h.caller_lt t ht)
  caller_ok := h.caller_ok
  disjoint := h.disjoint

theorem CatalogInv.after_add {w : World} (h : CatalogInv w) (str : String) (k : Temp_temp)
    (hk : k ∉ w.rarg) : CatalogInv (F_add_to_map str k w) where
  fp_lt := by simpa using h.fp_lt
  sp_lt := by simpa using h.sp_lt
  rv_lt := by simpa using h.rv_lt
  rarg_lt := by simpa using h.rarg_lt
  rarg_ok := by
    intro hne
    simp only [F_add_to_map_rarg] at hne ⊢
    obtain ⟨h1, h2, h3⟩ := h.rarg_ok hne
    refine ⟨h1, h2, ?_⟩
    rw [← h3]
    apply List.map_congr_left
    intro t ht
    have : k ≠ t := fun e => hk (e ▸ ht)
    simp [this]
  spregs_ok := by simpa using h.spregs_ok
  callee_ok := by simpa using h.callee_ok
  caller_lt := by simpa using h.caller_lt
  caller_ok := by simpa using h.caller_ok
  disjoint := by simpa using h.disjoint

theorem CatalogInv.set_fp {w : World} (h : CatalogInv w) (hn : w.fp = none) (t : Temp_temp)
    (ht : t < w.temps) : CatalogInv { w with fp := some t } where
  fp_lt := by simpa using ht
  sp_lt := h.sp_lt
  rv_lt := h.rv_lt
  rarg_lt := h.rarg_lt
  rarg_ok := h.rarg_ok
  spregs_ok := fun hne => by
    obtain ⟨s, f, r, _, hf, _⟩ := h.spregs_ok hne
    rw [hn] at hf
    cases hf
  callee_ok := fun hne => by
    obtain ⟨s, f, rest, _, hf, _⟩ := h.callee_ok hne
    rw [hn] at hf
    cases hf
  caller_lt := h.caller_lt
  caller_ok := h.caller_ok
  disjoint := h.disjoint

theorem CatalogInv.set_sp {w : World} (h : CatalogInv w) (hn : w.sp = none) (t : Temp_temp)
    (ht : t < w.temps) : CatalogInv { w with sp := some t } where
  fp_lt := h.fp_lt
  sp_lt := by simpa using ht
  rv_lt := h.rv_lt
  rarg_lt := h.rarg_lt
  rarg_ok := h.rarg_ok
  spregs_ok := fun hne => by
    obtain ⟨s, f, r, hs, _, _⟩ := h.spregs_ok hne
    rw [hn] at hs
    cases hs
  callee_ok := fun hne => by
    obtain ⟨s, f, rest, hs, _, _⟩ := h.callee_ok hne
    rw [hn] at hs
    cases hs
  caller_lt := h.caller_lt
  caller_ok := h.caller_ok
  disjoint := h.disjoint

theorem CatalogInv.set_rv {w : World} (h : CatalogInv w) (hn : w.rv = none) (t : Temp_temp)
    (ht : t < w.temps) : CatalogInv { w with rv := some t } where
  fp_lt := h.fp_lt
  sp_lt := h.sp_lt
  rv_lt := by simpa using ht
  rarg_lt := h.rarg_lt
  rarg_ok := h.rarg_ok
  spregs_ok := fun hne => by
    obtain ⟨s, f, r, _, _, hr, _⟩ := h.spregs_ok hne
    rw [hn] at hr
    cases hr
  callee_ok := h.callee_ok
  caller_lt := h.caller_lt
  caller_ok := fun hne => by
    obtain ⟨r, r10, r11, args, hr, _⟩ := h.caller_ok hne
    rw [hn] at hr
    cases hr
  disjoint := h.disjoint

theorem not_mem_rarg_of_le {w : World} (h : CatalogInv w) {k : Temp_temp}
    (hk : w.temps ≤ k) : k ∉ w.rarg :=
  fun hmem => absurd (h.rarg_lt k hmem) (Nat.not_lt.mpr hk)

theorem F_FP_inv {w : World} (h : CatalogInv w) : CatalogInv (F_FP w).2 := by
  unfold F_FP
  cases hn : w.fp with
  | some t => exact h
  | none =>
    exact CatalogInv.after_add (CatalogInv.set_fp h.after_newtemp hn _ (by simp)) _ _
      (not_mem_rarg_of_le h (le_refl _))

theorem F_SP_inv {w : World} (h : CatalogInv w) : CatalogInv (F_SP w).2 := by
  unfold F_SP
  cases hn : w.sp with
  | some t => exact h
  | none =>
    exact CatalogInv.after_add (CatalogInv.set_sp h.after_newtemp hn _ (by simp)) _ _
      (not_mem_rarg_of_le h (le_refl _))

theorem F_RV_inv {w : World} (h : CatalogInv w) : CatalogInv (F_RV w).2 := by
  unfold F_RV
  cases hn : w.rv with
  | some t => exact h
  | none =>
    exact CatalogInv.after_add (CatalogInv.set_rv h.after_newtemp hn _ (by simp)) _ _
      (not_mem_rarg_of_le h (le_refl _))

theorem F_make_arg_regs_fst (w : World) :
    (F_make_arg_regs w).1
      = [w.temps, w.temps + 1, w.temps + 2, w.temps + 3, w.temps + 4, w.temps + 5] := rfl

@[simp] theorem F_make_arg_regs_snd_temps (w : World) :
    (F_make_arg_regs w).2.temps = w.temps + 6 := by
  simp [F_make_arg_regs]

@[simp] theorem F_make_arg_regs_snd_fp (w : World) : (F_make_arg_regs w).2.fp = w.fp := by
  simp [F_make_arg_regs]

@[simp] theorem F_make_arg_regs_snd_sp (w : World) : (F_make_arg_regs w).2.sp = w.sp := by
  simp [F_make_arg_regs]

@[simp] theorem F_make_arg_regs_snd_rv (w : World) : (F_make_arg_regs w).2.rv = w.rv := by
  simp [F_make_arg_regs]

@[simp] theorem F_make_arg_regs_snd_spregs (w : World) :
    (F_make_arg_regs w).2.spregs = w.spregs := by
  simp [F_make_arg_regs]

@[simp] theorem F_make_arg_regs_snd_rarg (w : World) :
    (F_make_arg_regs w).2.rarg = w.rarg := by
  simp [F_make_arg_regs]

@[simp] theorem F_make_arg_regs_snd_callee_saves (w : World) :
    (F_make_arg_regs w).2.callee_saves = w.callee_saves := by
  simp [F_make_arg_regs]

@[simp] theorem F_make_arg_regs_snd_caller_saves (w : World) :
    (F_make_arg_regs w).2.caller_saves = w.caller_saves := by
  simp [F_make_arg_regs]

/-- The six temporaries of `F_make_arg_regs` carry the six names, in order, in
the state the call leaves. -/
theorem F_make_arg_regs_names (w : World) :
    (F_make_arg_regs w).1.map (nameOf (F_make_arg_regs w).2) = argRegNames := by
  simp [F_make_arg_regs, argRegNames, add_assoc]

theorem F_make_arg_regs_inv {w : World} (h : CatalogInv w) :
    CatalogInv (F_make_arg_regs w).2 := by
  unfold F_make_arg_regs
  have h6 := h.after_newtemp.after_newtemp.after_newtemp.after_newtemp.after_newtemp.after_newtemp
  refine CatalogInv.after_add (CatalogInv.after_add (CatalogInv.after_add (CatalogInv.after_add (CatalogInv.after_add
    (CatalogInv.after_add h6 _ _ ?_) _ _ ?_) _ _ ?_) _ _ ?_) _ _ ?_) _ _ ?_
  all_goals
    simp only [F_add_to_map_rarg, newtemp_snd_rarg, newtemp_fst, newtemp_snd_temps]
    exact not_mem_rarg_of_le h (by omega)

theorem F_make_calle_saves_ext (rtl : Bool) (w : World) :
    Ext w (F_make_calle_saves rtl w).2 := by
  have h5 : Ext w (F_add_to_map "r15" (w.temps + 4) (F_add_to_map "r14" (w.temps + 3)
      (F_add_to_map "r13" (w.temps + 2) (F_add_to_map "r12" (w.temps + 1)
      (F_add_to_map "rbx" w.temps
        (newtemp (newtemp (newtemp (newtemp (newtemp w).2).2).2).2).2))))) := by
    refine Ext.add (Ext.add (Ext.add (Ext.add (Ext.add ?_ _ _ ?_) _ _ ?_) _ _ ?_) _ _ ?_)
      _ _ ?_
    · exact (Ext.newtemp w).trans ((Ext.newtemp _).trans ((Ext.newtemp _).trans
        ((Ext.newtemp _).trans (Ext.newtemp _))))
    all_goals omega
  unfold F_make_calle_saves
  cases rtl
  · exact h5.trans ((F_SP_ext _).trans (F_FP_ext _))
  · exact h5.trans ((F_FP_ext _).trans (F_SP_ext _))

theorem F_make_calle_saves_inv (rtl : Bool) {w : World} (h : CatalogInv w) :
    CatalogInv (F_make_calle_saves rtl w).2 := by
  have h5 : CatalogInv (F_add_to_map "r15" (w.temps + 4) (F_add_to_map "r14" (w.temps + 3)
      (F_add_to_map "r13" (w.temps + 2) (F_add_to_map "r12" (w.temps + 1)
      (F_add_to_map "rbx" w.temps
        (newtemp (newtemp (newtemp (newtemp (newtemp w).2).2).2).2).2))))) := by
    refine CatalogInv.after_add (CatalogInv.after_add (CatalogInv.after_add (CatalogInv.after_add (CatalogInv.after_add
      h.after_newtemp.after_newtemp.after_newtemp.after_newtemp.after_newtemp _ _ ?_) _ _ ?_) _ _ ?_) _ _ ?_) _ _ ?_
    all_goals
      simp only [F_add_to_map_rarg, newtemp_snd_rarg]
      exact not_mem_rarg_of_le h (by omega)
  unfold F_make_calle_saves
  cases rtl
  · exact F_FP_inv (F_SP_inv h5)
  · exact F_SP_inv (F_FP_inv h5)

/-- The list made by `F_make_calle_saves` starts with the stack pointer and
the frame pointer that the state holds after the call. -/
theorem F_make_calle_saves_shape (rtl : Bool) (w : World) :
    ∃ s f rest, (F_make_calle_saves rtl w).2.sp = some s ∧
      (F_make_calle_saves rtl w).2.fp = some f ∧
      (F_make_calle_saves rtl w).1 = s :: f :: rest := by
  unfold F_make_calle_saves
  cases rtl
  · exact ⟨_, _, _, by simp, by simp, rfl⟩
  · exact ⟨_, _, _, by simp, by simp, rfl⟩

@[simp] theorem F_make_calle_saves_snd_rv (rtl : Bool) (w : World) :
    (F_make_calle_saves rtl w).2.rv = w.rv := by
  unfold F_make_calle_saves; cases rtl <;> simp

@[simp] theorem F_make_calle_saves_snd_spregs (rtl : Bool) (w : World) :
    (F_make_calle_saves rtl w).2.spregs = w.spregs := by
  unfold F_make_calle_saves; cases rtl <;> simp

@[simp] theorem F_make_calle_saves_snd_rarg (rtl : Bool) (w : World) :
    (F_make_calle_saves rtl w).2.rarg = w.rarg := by
  unfold F_make_calle_saves; cases rtl <;> simp

@[simp] theorem F_make_calle_saves_snd_callee_saves (rtl : Bool) (w : World) :
    (F_make_calle_saves rtl w).2.callee_saves = w.callee_saves := by
  unfold F_make_calle_saves; cases rtl <;> simp

@[simp] theorem F_make_calle_saves_snd_caller_saves (rtl : Bool) (w : World) :
    (F_make_calle_saves rtl w).2.caller_saves = w.caller_saves := by
  unfold F_make_calle_saves; cases rtl <;> simp

theorem F_make_caller_saves_ext (rtl : Bool) (w : World) :
    Ext w (F_make_caller_saves rtl w).2 := by
  have h2 : Ext w (F_add_to_map "r11" (w.temps + 1) (F_add_to_map "r10" w.temps
      (newtemp (newtemp w).2).2)) := by
    refine Ext.add (Ext.add ?_ _ _ ?_) _ _ ?_
    · exact (Ext.newtemp w).trans (Ext.newtemp _)
    all_goals omega
  unfold F_make_caller_saves
  cases rtl
  · exact h2.trans ((F_RV_ext _).trans (F_make_arg_regs_ext _))
  · exact h2.trans ((F_make_arg_regs_ext _).trans (F_RV_ext _))

theorem F_make_caller_saves_inv (rtl : Bool) {w : World} (h : CatalogInv w) :
    CatalogInv (F_make_caller_saves rtl w).2 := by
  have h2 : CatalogInv (F_add_to_map "r11" (w.temps + 1) (F_add_to_map "r10" w.temps
      (newtemp (newtemp w).2).2)) := by
    refine CatalogInv.after_add (CatalogInv.after_add h.after_newtemp.after_newtemp _ _ ?_) _ _ ?_
    all_goals
      simp only [F_add_to_map_rarg, newtemp_snd_rarg]
      exact not_mem_rarg_of_le h (by omega)
  unfold F_make_caller_saves
  cases rtl
  · exact F_make_arg_regs_inv (F_RV_inv h2)
  · exact F_RV_inv (F_make_arg_regs_inv h2)

@[simp] theorem F_make_caller_saves_snd_fp (rtl : Bool) (w : World) :
    (F_make_caller_saves rtl w).2.fp = w.fp := by
  unfold F_make_caller_saves; cases rtl <;> simp

@[simp] theorem F_make_caller_saves_snd_sp (rtl : Bool) (w : World) :
    (F_make_caller_saves rtl w).2.sp = w.sp := by
  unfold F_make_caller_saves; cases rtl <;> simp

@[simp] theorem F_make_caller_saves_snd_spregs (rtl : Bool) (w : World) :
    (F_make_caller_saves rtl w).2.spregs = w.spregs := by
  unfold F_make_caller_saves; cases rtl <;> simp

@[simp] theorem F_make_caller_saves_snd_rarg (rtl : Bool) (w : World) :
    (F_make_caller_saves rtl w).2.rarg = w.rarg := by
  unfold F_make_caller_saves; cases rtl <;> simp

@[simp] theorem F_make_caller_saves_snd_callee_saves (rtl : Bool) (w : World) :
    (F_make_caller_saves rtl w).2.callee_saves = w.callee_saves := by
  unfold F_make_caller_saves; cases rtl <;> simp

@[simp] theorem F_make_caller_saves_snd_caller_saves (rtl : Bool) (w : World) :
    (F_make_caller_saves rtl w).2.caller_saves = w.caller_saves := by
  unfold F_make_caller_saves; cases rtl <;> simp

/-- The list made by `F_make_caller_saves`: the return-value register the
state holds after the call, two more temporaries, and six temporaries that did
not exist before the call. -/
theorem F_make_caller_saves_shape (rtl : Bool) {w : World} (h : CatalogInv w) :
    ∃ r r10 r11 args, (F_make_caller_saves rtl w).1 = r :: r10 :: r11 :: args ∧
      (F_make_caller_saves rtl w).2.rv = some r ∧ args.length = 6 ∧
      (∀ t : Nat, t ∈ (F_make_caller_saves rtl w).1 →
        t < (F_make_caller_saves rtl w).2.temps) ∧
      (∀ t : Nat, t ∈ args → w.temps ≤ t) := by
  have hi := F_make_caller_saves_inv rtl h
  have h2 : CatalogInv (F_add_to_map "r11" (w.temps + 1) (F_add_to_map "r10" w.temps
      (newtemp (newtemp w).2).2)) := by
    refine CatalogInv.after_add (CatalogInv.after_add h.after_newtemp.after_newtemp _ _ ?_) _ _ ?_
    all_goals
      simp only [F_add_to_map_rarg, newtemp_snd_rarg]
      exact not_mem_rarg_of_le h (by omega)
  revert hi
  unfold F_make_caller_saves
  cases rtl
  · intro hi
    simp only [Bool.false_eq_true, if_false] at hi ⊢
    refine ⟨_, _, _, _, rfl, by simp, by simp [F_make_arg_regs_fst], ?_, ?_⟩
    · have hr := (F_RV_inv h2).rv_lt _ (F_RV_snd_rv _)
      have hle := (F_RV_ext (F_add_to_map "r11" (w.temps + 1) (F_add_to_map "r10" w.temps
        (newtemp (newtemp w).2).2))).temps_le
      simp only [F_add_to_map_temps, newtemp_snd_temps, newtemp_fst] at hr hle ⊢
      intro t ht
      simp only [F_make_arg_regs_fst, F_make_arg_regs_snd_temps, List.mem_cons,
        List.mem_singleton, List.not_mem_nil, or_false] at ht ⊢
      rcases ht with rfl | rfl | rfl | rfl | rfl | rfl | rfl | rfl | rfl <;> omega
    · have hle := (F_RV_ext (F_add_to_map "r11" (w.temps + 1) (F_add_to_map "r10" w.temps
        (newtemp (newtemp w).2).2))).temps_le
      simp only [F_add_to_map_temps, newtemp_snd_temps] at hle
      intro t ht
      simp only [F_make_arg_regs_fst, newtemp_fst, newtemp_snd_temps, List.mem_cons,
        List.mem_singleton, List.not_mem_nil, or_false] at ht
      rcases ht with rfl | rfl | rfl | rfl | rfl | rfl <;> omega
  · intro hi
    simp only [if_true] at hi ⊢
    refine ⟨_, _, _, _, rfl, by simp, by simp [F_make_arg_regs_fst], ?_, ?_⟩
    · have hr := hi.rv_lt _ (F_RV_snd_rv _)
      have hle := (F_RV_ext (F_make_arg_regs (F_add_to_map "r11" (w.temps + 1)
        (F_add_to_map "r10" w.temps (newtemp (newtemp w).2).2))).2).temps_le
      simp only [F_make_arg_regs_snd_temps, F_add_to_map_temps, newtemp_snd_temps,
        newtemp_fst] at hr hle ⊢
      intro t ht
      simp only [F_make_arg_regs_fst, F_add_to_map_temps, newtemp_snd_temps, List.mem_cons,
        List.mem_singleton, List.not_mem_nil, or_false] at ht ⊢
      rcases ht with rfl | rfl | rfl | rfl | rfl | rfl | rfl | rfl | rfl <;> omega
    · intro t ht
      simp only [F_make_arg_regs_fst, F_add_to_map_temps, newtemp_snd_temps, List.mem_cons,
        List.mem_singleton, List.not_mem_nil, or_false] at ht
      rcases ht with rfl | rfl | rfl | rfl | rfl | rfl <;> omega

/-! ## Register catalog: the cached accessors -/

theorem F_special_registers_ext (rtl : Bool) (w : World) :
    Ext w (F_special_registers rtl w).2 := by
  by_cases h : w.spregs = []
  · have key : ∀ (w1 : World) (l : Temp_tempList), Ext w w1 →
        Ext w { w1 with spregs := l } := fun w1 l e =>
      ⟨e.temps_le, e.names, e.fp, e.sp, e.rv, fun hne => absurd h hne, e.rarg,
        e.callee_saves, e.caller_saves⟩
    cases rtl
    · simp only [F_special_registers, h, if_true, Bool.false_eq_true, if_false]
      exact key _ _ ((F_SP_ext _).trans ((F_FP_ext _).trans (F_RV_ext _)))
    · simp only [F_special_registers, h, if_true]
      exact key _ _ ((F_RV_ext _).trans ((F_FP_ext _).trans (F_SP_ext _)))
  · simp only [F_special_registers, h, if_false]
    exact Ext.refl w

theorem F_arg_registers_ext (w : World) : Ext w (F_arg_registers w).2 := by
  by_cases h : w.rarg = []
  · simp only [F_arg_registers, h, if_true]
    have e := F_make_arg_regs_ext w
    exact ⟨e.temps_le, e.names, e.fp, e.sp, e.rv, e.spregs, fun hne => absurd h hne,
      e.callee_saves, e.caller_saves⟩
  · simp only [F_arg_registers, h, if_false]
    exact Ext.refl w

theorem F_callee_saves_ext (rtl : Bool) (w : World) : Ext w (F_callee_saves rtl w).2 := by
  by_cases h : w.callee_saves = []
  · simp only [F_callee_saves, h, if_true]
    have e := F_make_calle_saves_ext rtl w
    exact ⟨e.temps_le, e.names, e.fp, e.sp, e.rv, e.spregs, e.rarg,
      fun hne => absurd h hne, e.caller_saves⟩
  · simp only [F_callee_saves, h, if_false]
    exact Ext.refl w

theorem F_caller_saves_ext (rtl : Bool) (w : World) : Ext w (F_caller_saves rtl w).2 := by
  by_cases h : w.caller_saves = []
  · simp only [F_caller_saves, h, if_true]
    have e := F_make_caller_saves_ext rtl w
    exact ⟨e.temps_le, e.names, e.fp, e.sp, e.rv, e.spregs, e.rarg, e.callee_saves,
      fun hne => absurd h hne⟩
  · simp only [F_caller_saves, h, if_false]
    exact Ext.refl w

theorem F_registers_ext (rtl : Bool) (w : World) : Ext w (F_registers rtl w).2 := by
  unfold F_registers
  cases rtl
  · exact (F_caller_saves_ext _ _).trans (F_callee_saves_ext _ _)
  · exact (F_callee_saves_ext _ _).trans (F_caller_saves_ext _ _)

theorem F_special_registers_inv (rtl : Bool) {w : World} (h : CatalogInv w) :
    CatalogInv (F_special_registers rtl w).2 := by
  by_cases hn : w.spregs = []
  · have key : ∀ (w1 : World) (s f r : Temp_temp), CatalogInv w1 → w1.sp = some s →
        w1.fp = some f → w1.rv = some r → CatalogInv { w1 with spregs := [s, f, r] } :=
      fun w1 s f r i hs hf hr =>
        ⟨i.fp_lt, i.sp_lt, i.rv_lt, i.rarg_lt, i.rarg_ok, fun _ => ⟨s, f, r, hs, hf, hr, rfl⟩,
          i.callee_ok, i.caller_lt, i.caller_ok, i.disjoint⟩
    cases rtl
    · simp only [F_special_registers, hn, if_true, Bool.false_eq_true, if_false]
      exact key _ _ _ _ (F_RV_inv (F_FP_inv (F_SP_inv h))) (by simp) (by simp) (by simp)
    · simp only [F_special_registers, hn, if_true]
      exact key _ _ _ _ (F_SP_inv (F_FP_inv (F_RV_inv h))) (by simp) (by simp) (by simp)
  · simp only [F_special_registers, hn, if_false]
    exact h

theorem F_arg_registers_inv {w : World} (h : CatalogInv w) :
    CatalogInv (F_arg_registers w).2 := by
  by_cases hn : w.rarg = []
  · simp only [F_arg_registers, hn, if_true]
    have i := F_make_arg_regs_inv h
    have hmem : ∀ t : Nat, t ∈ (F_make_arg_regs w).1 → w.temps ≤ t ∧ t < w.temps + 6 := by
      intro t ht
      simp only [F_make_arg_regs_fst, List.mem_cons, List.mem_singleton, List.not_mem_nil,
        or_false] at ht
      rcases ht with rfl | rfl | rfl | rfl | rfl | rfl <;> omega
    refine ⟨i.fp_lt, i.sp_lt, i.rv_lt, ?_, ?_, i.spregs_ok, i.callee_ok, i.caller_lt,
      i.caller_ok, ?_⟩
    · intro t ht
      have := (hmem t ht).2
      simpa using this
    · intro _
      refine ⟨rfl, ?_, F_make_arg_regs_names w⟩
      simp [F_make_arg_regs_fst, add_assoc]
    · intro t ht hd
      have h1 := (hmem t ht).1
      have h2 := h.caller_lt t (List.mem_of_mem_drop (by simpa using hd))
      omega
  · simp only [F_arg_registers, hn, if_false]
    exact h

theorem F_callee_saves_inv (rtl : Bool) {w : World} (h : CatalogInv w) :
    CatalogInv (F_callee_saves rtl w).2 := by
  by_cases hn : w.callee_saves = []
  · simp only [F_callee_saves, hn, if_true]
    have i := F_make_calle_saves_inv rtl h
    obtain ⟨s, f, rest, hs, hf, hl⟩ := F_make_calle_saves_shape rtl w
    exact ⟨i.fp_lt, i.sp_lt, i.rv_lt, i.rarg_lt, i.rarg_ok, i.spregs_ok,
      fun _ => ⟨s, f, rest, hs, hf, hl⟩, i.caller_lt, i.caller_ok, i.disjoint⟩
  · simp only [F_callee_saves, hn, if_false]
    exact h

theorem F_caller_saves_inv (rtl : Bool) {w : World} (h : CatalogInv w) :
    CatalogInv (F_caller_saves rtl w).2 := by
  by_cases hn : w.caller_saves = []
  · simp only [F_caller_saves, hn, if_true]
    have i := F_make_caller_saves_inv rtl h
    obtain ⟨r, r10, r11, args, hl, hr, hlen, hlt, hge⟩ := F_make_caller_saves_shape rtl h
    refine ⟨i.fp_lt, i.sp_lt, i.rv_lt, i.rarg_lt, i.rarg_ok, i.spregs_ok, i.callee_ok, hlt,
      fun _ => ⟨r, r10, r11, args, hr, hl, hlen⟩, ?_⟩
    intro t ht hd
    simp only [hl, List.drop_succ_cons, List.drop_zero] at hd
    have h1 := hge t hd
    have h2 := h.rarg_lt t (by simpa using ht)
    omega
  · simp only [F_caller_saves, hn, if_false]
    exact h

theorem F_registers_inv (rtl : Bool) {w : World} (h : CatalogInv w) :
    CatalogInv (F_registers rtl w).2 := by
  unfold F_registers
  cases rtl
  · exact F_callee_saves_inv _ (F_caller_saves_inv _ h)
  · exact F_caller_saves_inv _ (F_callee_saves_inv _ h)

theorem step_ext (rtl : Bool) (w : World) (op : CatalogOp) : Ext w (step rtl w op) := by
  cases op
  · exact F_FP_ext w
  · exact F_SP_ext w
  · exact F_RV_ext w
  · exact F_special_registers_ext rtl w
  · exact F_arg_registers_ext w
  · exact F_callee_saves_ext rtl w
  · exact F_caller_saves_ext rtl w
  · exact F_registers_ext rtl w
  · exact Ext.newtemp w

theorem step_inv (rtl : Bool) {w : World} (h : CatalogInv w) (op : CatalogOp) :
    CatalogInv (step rtl w op) := by
  cases op
  · exact F_FP_inv h
  · exact F_SP_inv h
  · exact F_RV_inv h
  · exact F_special_registers_inv rtl h
  · exact F_arg_registers_inv h
  · exact F_callee_saves_inv rtl h
  · exact F_caller_saves_inv rtl h
  · exact F_registers_inv rtl h
  · exact h.after_newtemp

theorem run_ext (rtl : Bool) (ops : List CatalogOp) (w : World) : Ext w (run rtl ops w) := by
  induction ops generalizing w with
  | nil => exact Ext.refl w
  | cons op ops ih => exact (step_ext rtl w op).trans (ih _)

theorem run_inv (rtl : Bool) (ops : List CatalogOp) {w : World} (h : CatalogInv w) :
    CatalogInv (run rtl ops w) := by
  induction ops generalizing w with
  | nil => exact h
  | cons op ops ih => exact ih (step_inv rtl h op)

/-! ## Register catalog: what the accessors return -/

theorem F_special_registers_fst (rtl : Bool) (w : World) :
    (F_special_registers rtl w).1 = (F_special_registers rtl w).2.spregs ∧
    (F_special_registers rtl w).2.spregs ≠ [] := by
  by_cases h : w.spregs = []
  · cases rtl <;> simp [F_special_registers, h]
  · simp [F_special_registers, h]

theorem F_arg_registers_fst (w : World) :
    (F_arg_registers w).1 = (F_arg_registers w).2.rarg ∧ (F_arg_registers w).2.rarg ≠ [] := by
  by_cases h : w.rarg = []
  · simp [F_arg_registers, h, F_make_arg_regs_fst]
  · simp [F_arg_registers, h]

theorem F_callee_saves_fst (rtl : Bool) (w : World) :
    (F_callee_saves rtl w).1 = (F_callee_saves rtl w).2.callee_saves ∧
    (F_callee_saves rtl w).2.callee_saves ≠ [] := by
  by_cases h : w.callee_saves = []
  · obtain ⟨s, f, rest, _, _, hl⟩ := F_make_calle_saves_shape rtl w
    simp [F_callee_saves, h, hl]
  · simp [F_callee_saves, h]

theorem F_caller_saves_fst (rtl : Bool) (w : World) :
    (F_caller_saves rtl w).1 = (F_caller_saves rtl w).2.caller_saves ∧
    (F_caller_saves rtl w).2.caller_saves ≠ [] := by
  by_cases h : w.caller_saves = []
  · cases rtl <;> simp [F_caller_saves, h, F_make_caller_saves]
  · simp [F_caller_saves, h]

theorem F_arg_registers_of_ne {w : World} (h : w.rarg ≠ []) :
    (F_arg_registers w).1 = w.rarg := by
  simp [F_arg_registers, h]

theorem F_RV_of_some {w : World} {r : Temp_temp} (h : w.rv = some r) : (F_RV w).1 = r := by
  simp [F_RV, h]

/-- C12: the claim asks that the last six entries of `F_caller_saves()` be the
temporaries of `F_arg_registers()`.  `F_make_caller_saves` calls
`F_make_arg_regs()` a second time instead: after any call history and for
either argument evaluation order, the last six entries of `F_caller_saves()`
share no temporary with `F_arg_registers()`; from process start with the
generator at 100, `F_arg_registers()` is `[100, ..., 105]` and the
caller-saved list ends in `[109, ..., 114]` (left to right) or
`[108, ..., 113]` (right to left). -/
theorem C12_caller_saves_makes_its_own_arg_registers (rtl : Bool) (temps0 : Nat)
    (ops : List CatalogOp) :
    (((F_caller_saves rtl
        (F_arg_registers (run rtl ops (initWorld temps0))).2).1.drop 3).length = 6 ∧
      ∀ t : Nat, t ∈ (F_arg_registers (run rtl ops (initWorld temps0))).1 →
        t ∉ (F_caller_saves rtl
          (F_arg_registers (run rtl ops (initWorld temps0))).2).1.drop 3) ∧
    (F_arg_registers (initWorld 100)).1 = [100, 101, 102, 103, 104, 105] ∧
    (F_caller_saves false (F_arg_registers (initWorld 100)).2).1
      = [108, 106, 107, 109, 110, 111, 112, 113, 114] ∧
    (F_caller_saves true (F_arg_registers (initWorld 100)).2).1
      = [114, 106, 107, 108, 109, 110, 111, 112, 113] := by
  refine ⟨?_, rfl, rfl, rfl⟩
  have hw := run_inv rtl ops (CatalogInv.init temps0)
  have ha := F_arg_registers_inv hw
  have hc := F_caller_saves_inv rtl ha
  obtain ⟨ha1, ha2⟩ := F_arg_registers_fst (run rtl ops (initWorld temps0))
  obtain ⟨hc1, hc2⟩ := F_caller_saves_fst rtl
    (F_arg_registers (run rtl ops (initWorld temps0))).2
  have hrarg := (F_caller_saves_ext rtl
    (F_arg_registers (run rtl ops (initWorld temps0))).2).rarg ha2
  obtain ⟨r, r10, r11, args, _, hl, hlen⟩ := hc.caller_ok hc2
  constructor
  · rw [hc1, hl]
    simpa using hlen
  · intro t ht
    rw [hc1]
    apply hc.disjoint t
    rw [hrarg, ← ha1]
    exact ht

/-- C13: after any call history and for either argument evaluation order,
`F_arg_registers()` returns `F_K = 6` pairwise distinct temporaries that the
name map binds, in list order, to `rdi`, `rsi`, `rdx`, `rcx`, `r8`, `r9`; the
bindings and the list stay so over every later call history. -/
theorem C13_arg_registers_six_distinct_named (rtl : Bool) (temps0 : Nat)
    (ops later : List CatalogOp) :
    (((F_arg_registers (run rtl ops (initWorld temps0))).1.length : Int) = F_K) ∧
    (F_arg_registers (run rtl ops (initWorld temps0))).1.Nodup ∧
    (F_arg_registers (run rtl ops (initWorld temps0))).1.map
        (nameOf (F_arg_registers (run rtl ops (initWorld temps0))).2)
      = [some "rdi", some "rsi", some "rdx", some "rcx", some "r8", some "r9"] ∧
    (F_arg_registers (run rtl ops (initWorld temps0))).1.map
        (nameOf (run rtl later (F_arg_registers (run rtl ops (initWorld temps0))).2))
      = [some "rdi", some "rsi", some "rdx", some "rcx", some "r8", some "r9"] ∧
    (F_arg_registers (run rtl later (F_arg_registers (run rtl ops (initWorld temps0))).2)).1
      = (F_arg_registers (run rtl ops (initWorld temps0))).1 := by
  have hw := run_inv rtl ops (CatalogInv.init temps0)
  have ha := F_arg_registers_inv hw
  obtain ⟨ha1, ha2⟩ := F_arg_registers_fst (run rtl ops (initWorld temps0))
  obtain ⟨h1, h2, h3⟩ := ha.rarg_ok ha2
  have hl := run_inv rtl later ha
  have hrarg := (run_ext rtl later (F_arg_registers (run rtl ops (initWorld temps0))).2).rarg
    ha2
  have hne : (run rtl later (F_arg_registers (run rtl ops (initWorld temps0))).2).rarg ≠ [] := by
    rw [hrarg]; exact ha2
  obtain ⟨_, _, h3l⟩ := hl.rarg_ok hne
  rw [ha1]
  refine ⟨by rw [h1]; rfl, h2, h3, ?_, ?_⟩
  · rw [← hrarg]; exact h3l
  · exact (F_arg_registers_of_ne hne).trans hrarg

/-- C14: after any call history, with any calls in between and for either
argument evaluation order, every temporary of `F_special_registers()` is a
member of `F_callee_saves()` or is `F_RV()`. -/
theorem C14_special_registers_covered (rtl : Bool) (temps0 : Nat)
    (ops between1 between2 : List CatalogOp) :
    ∀ t : Nat, t ∈ (F_special_registers rtl (run rtl ops (initWorld temps0))).1 →
      t ∈ (F_callee_saves rtl (run rtl between1
            (F_special_registers rtl (run rtl ops (initWorld temps0))).2)).1 ∨
      t = (F_RV (run rtl between2 (F_callee_saves rtl (run rtl between1
            (F_special_registers rtl (run rtl ops (initWorld temps0))).2)).2)).1 := by
  have hw := run_inv rtl ops (CatalogInv.init temps0)
  have hs := F_special_registers_inv rtl hw
  obtain ⟨hs1, hs2⟩ := F_special_registers_fst rtl (run rtl ops (initWorld temps0))
  obtain ⟨s, f, r, hsp, hfp, hrv, hlist⟩ := hs.spregs_ok hs2
  have e1 := run_ext rtl between1 (F_special_registers rtl (run rtl ops (initWorld temps0))).2
  have h1 := run_inv rtl between1 hs
  have e2 := F_callee_saves_ext rtl (run rtl between1
    (F_special_registers rtl (run rtl ops (initWorld temps0))).2)
  have h2 := F_callee_saves_inv rtl h1
  obtain ⟨hc1, hc2⟩ := F_callee_saves_fst rtl (run rtl between1
    (F_special_registers rtl (run rtl ops (initWorld temps0))).2)
  obtain ⟨s1, f1, rest, hsp1, hfp1, hl1⟩ := h2.callee_ok hc2
  have e3 := run_ext rtl between2 (F_callee_saves rtl (run rtl between1
    (F_special_registers rtl (run rtl ops (initWorld temps0))).2)).2
  have hs_eq : s1 = s := by
    have := e2.sp s (e1.sp s hsp)
    rw [hsp1] at this
    exact Option.some.inj this
  have hf_eq : f1 = f := by
    have := e2.fp f (e1.fp f hfp)
    rw [hfp1] at this
    exact Option.some.inj this
  have hr_eq := F_RV_of_some (e3.rv r (e2.rv r (e1.rv r hrv)))
  intro t ht
  rw [hs1, hlist] at ht
  rw [hc1, hl1, hr_eq, hs_eq, hf_eq]
  simp only [List.mem_cons, List.mem_singleton, List.not_mem_nil, or_false] at ht
  rcases ht with rfl | rfl | rfl
  · exact Or.inl (List.mem_cons_self _ _)
  · exact Or.inl (List.mem_cons_of_mem _ (List.mem_cons_self _ _))
  · exact Or.inr rfl

theorem C14_special_registers_covered_witness :
    109 ∈ (F_special_registers true (run true [CatalogOp.opCaller, CatalogOp.opFP]
        (initWorld 100))).1 ∧
    (109 ∈ (F_callee_saves true (run true [CatalogOp.opNewtemp]
          (F_special_registers true (run true [CatalogOp.opCaller, CatalogOp.opFP]
            (initWorld 100))).2)).1 ∨
      109 = (F_RV (run true [CatalogOp.opArg] (F_callee_saves true
          (run true [CatalogOp.opNewtemp]
            (F_special_registers true (run true [CatalogOp.opCaller, CatalogOp.opFP]
              (initWorld 100))).2)).2)).1) :=
  ⟨by decide, C14_special_registers_covered true 100 [CatalogOp.opCaller, CatalogOp.opFP]
    [CatalogOp.opNewtemp] [CatalogOp.opArg] 109 (by decide)⟩

/-! ## Temporaries of one frame -/

/-- The temporaries the loop hands out are drawn in increasing order from the
generator value it starts with, and the generator ends above all of them. -/
theorem formalsFrom_regTemps (fs : U_boolList) (i : Int) (temps : Nat) :
    (regTemps (formalsFrom fs i temps).1).Pairwise (fun a b : Nat => a < b) ∧
    (∀ t : Nat, t ∈ regTemps (formalsFrom fs i temps).1 →
      temps ≤ t ∧ t < (formalsFrom fs i temps).2) ∧
    temps ≤ (formalsFrom fs i temps).2 := by
  induction fs generalizing i temps with
  | nil => simp [formalsFrom, regTemps]
  | cons head tail ih =>
    unfold formalsFrom
    split
    · obtain ⟨h1, h2, h3⟩ := ih (i + 1) (temps + 1)
      refine ⟨?_, ?_, ?_⟩
      · simp only [regTemps, List.pairwise_cons]
        exact ⟨fun t ht => by have := (h2 t ht).1; omega, h1⟩
      · intro t ht
        simp only [regTemps, List.mem_cons] at ht
        rcases ht with rfl | ht
        · exact ⟨le_refl _, by simp only; omega⟩
        · have := h2 t ht
          exact ⟨by omega, this.2⟩
      · simp only; omega
    · obtain ⟨h1, h2, h3⟩ := ih i temps
      exact ⟨by simpa [regTemps] using h1, by simpa [regTemps] using h2, h3⟩

/-- Along a sequence of local allocations on one frame, with other draws in
between: a register-resident local holds the generator value of the moment of
its call, and the temporaries handed out increase. -/
theorem allocLocalsTrace_regTemps (f : F_frame) (es : List (Nat × Bool)) (temps : Nat) :
    (regTemps ((allocLocalsTrace f es temps).map Prod.snd)).Pairwise
      (fun a b : Nat => a < b) ∧
    (∀ t : Nat, t ∈ regTemps ((allocLocalsTrace f es temps).map Prod.snd) → temps ≤ t) ∧
    (∀ c t : Nat, (c, InReg t) ∈ allocLocalsTrace f es temps → temps ≤ c ∧ t = c) := by
  induction es generalizing f temps with
  | nil => simp [allocLocalsTrace, regTemps]
  | cons ge es ih =>
    obtain ⟨gap, e⟩ := ge
    cases e with
    | true =>
      obtain ⟨h1, h2, h3⟩ := ih (F_allocLocal f true (temps + gap)).2.1 (temps + gap)
      simp only [allocLocalsTrace, F_allocLocal, if_true, List.map_cons, regTemps] at h1 h2 h3 ⊢
      refine ⟨h1, fun t ht => by have := h2 t ht; omega, ?_⟩
      intro c t hm
      simp only [List.mem_cons, Prod.mk.injEq, reduceCtorEq, and_false, false_or] at hm
      have := h3 c t hm
      exact ⟨by omega, this.2⟩
    | false =>
      obtain ⟨h1, h2, h3⟩ := ih (F_allocLocal f false (temps + gap)).2.1 (temps + gap + 1)
      simp only [allocLocalsTrace, F_allocLocal, Bool.false_eq_true, if_false, Temp_newtemp,
        List.map_cons, regTemps, List.pairwise_cons, List.mem_cons] at h1 h2 h3 ⊢
      refine ⟨⟨fun t ht => by have := h2 t ht; omega, h1⟩, ?_, ?_⟩
      · rintro t (rfl | ht)
        · omega
        · have := h2 t ht; omega
      · intro c t hm
        rcases hm with hm | hm
        · simp only [Prod.mk.injEq, F_access.InReg.injEq] at hm
          obtain ⟨hc, ht⟩ := hm
          subst hc
          subst ht
          exact ⟨by omega, rfl⟩
        · have := h3 c t hm
          exact ⟨by omega, this.2⟩

theorem regTemps_append (l1 l2 : List F_access) :
    regTemps (l1 ++ l2) = regTemps l1 ++ regTemps l2 := by
  induction l1 with
  | nil => rfl
  | cons a l ih => cases a <;> simp [regTemps, ih]

/-- C19: with the counter as temporary generator, the temporaries of the
`InReg` formals of a frame followed by those of the `InReg` locals later
returned by `F_allocLocal` on it (whatever else draws temporaries in between)
increase strictly, so they are pairwise distinct; a formal is not below the
generator value at which `F_newFrame` was called, and a local equals the
generator value of the moment of its call, so neither is a temporary that
existed before. -/
theorem C19_frame_temporaries_distinct_and_fresh (l : Temp_label) (fs : U_boolList)
    (temps : Nat) (es : List (Nat × Bool)) :
    (regTemps (F_formals (F_newFrame l fs temps).1 ++
        (allocLocalsTrace (F_newFrame l fs temps).1 es (F_newFrame l fs temps).2).map
          Prod.snd)).Pairwise (fun a b : Nat => a < b) ∧
    (regTemps (F_formals (F_newFrame l fs temps).1 ++
        (allocLocalsTrace (F_newFrame l fs temps).1 es (F_newFrame l fs temps).2).map
          Prod.snd)).Nodup ∧
    (∀ t : Nat, t ∈ regTemps (F_formals (F_newFrame l fs temps).1) → temps ≤ t) ∧
    (∀ c t : Nat,
      (c, InReg t) ∈ allocLocalsTrace (F_newFrame l fs temps).1 es (F_newFrame l fs temps).2 →
        c ≤ t) := by
  obtain ⟨hf1, hf2, _⟩ := formalsFrom_regTemps fs 1 temps
  obtain ⟨ht1, ht2, ht3⟩ := allocLocalsTrace_regTemps (F_newFrame l fs temps).1 es
    (F_newFrame l fs temps).2
  have h2 : (F_newFrame l fs temps).2 = (formalsFrom fs 1 temps).2 := by
    simp [F_newFrame, makeFormalAccessList_eq]
  have hpw : (regTemps (F_formals (F_newFrame l fs temps).1 ++
      (allocLocalsTrace (F_newFrame l fs temps).1 es (F_newFrame l fs temps).2).map
        Prod.snd)).Pairwise (fun a b : Nat => a < b) := by
    rw [regTemps_append, List.pairwise_append, F_formals_newFrame]
    refine ⟨hf1, ht1, ?_⟩
    intro a ha b hb
    have h3 := (hf2 a ha).2
    have h4 := ht2 b hb
    rw [h2] at h4
    omega
  refine ⟨hpw, hpw.imp (fun h => Nat.ne_of_lt h), ?_, ?_⟩
  · intro t ht
    rw [F_formals_newFrame] at ht
    exact (hf2 t ht).1
  · intro c t hm
    have := (ht3 c t hm).2
    omega

end Amd64Frame
